import Mathlib

/-!
Verification of the KinNet kinship-title inference core
(`backend/core/inference.py` and `backend/core/kinship_loader.py`)
against its natural-language specification.

Strings of the Python source are modelled as `List Char`; Python
dictionaries as assignment lists with last-write-wins lookup; Python
exceptions as an `Except PyErr` result.  The NetworkX shortest-path is an
external collaborator of the repository and is modelled from the spec as a
breadth-first search over adjacency lists.  The CSV rule file is not part
of the repository; the loaded rule store is therefore an explicit
parameter of `infer_kinship`.
-/

namespace KinNet

/-- Layout position of a person node: optional x / y coordinates.
    A missing coordinate models a missing dictionary key. -/
structure Position where
  x : Option Int
  y : Option Int
deriving DecidableEq, Repr

/-- A person record as consumed by `_build_graph`: `gender` is the optional
    "gender" field (read with default "M"), `position` the optional
    "position" field. -/
structure PersonNode where
  id : String
  gender : Option String
  position : Option Position
deriving DecidableEq, Repr

/-- An input edge record with its label string. -/
structure Edge where
  source : String
  target : String
  label : String
deriving DecidableEq, Repr

/-- The Python exceptions reachable from `infer_kinship`:
    `nodeNotFound` from `nx.has_path` / `nx.shortest_path` when an endpoint
    is not a node of the graph, `keyError` from `node_data[v]` in
    `_path_to_graph_signature`. -/
inductive PyErr where
  | nodeNotFound
  | keyError
deriving DecidableEq, Repr

/-- Append a vertex if not already present (node insertion order). -/
def addVert (vs : List String) (v : String) : List String :=
  if v ∈ vs then vs else vs ++ [v]

/-- A directed graph with a string `relation` attribute per edge.
    `edges` records every `add_edge` call in order; the effective relation
    of a pair `(u, v)` is the attribute of the *last* call, matching the
    NetworkX behaviour that a repeated `add_edge` overwrites attributes. -/
structure Graph where
  verts : List String
  edges : List (String × String × String)
deriving DecidableEq, Repr

def Graph.empty : Graph := ⟨[], []⟩

def Graph.addNode (g : Graph) (v : String) : Graph :=
  { g with verts := addVert g.verts v }

def Graph.addEdge (g : Graph) (u v rel : String) : Graph :=
  { verts := addVert (addVert g.verts u) v
    edges := g.edges ++ [(u, v, rel)] }

/-- `G[u][v]["relation"]` / `G.get_edge_data(u, v)`: attribute of the last
    `add_edge u v`, if any. -/
def Graph.rel (g : Graph) (u v : String) : Option String :=
  (g.edges.reverse.find? (fun e => e.1 == u && e.2.1 == v)).map (fun e => e.2.2)

/-- `_build_graph`: the directed graph plus the by-id node dictionary.
    Unrecognized edge labels are ignored; `spouse_of` is inserted in both
    directions.  The dictionary is modelled as the list of assignments
    (lookup takes the last one). -/
def build_graph (nodes : List PersonNode) (edges : List Edge) :
    Graph × List (String × PersonNode) :=
  let g0 := nodes.foldl (fun g n => g.addNode n.id) Graph.empty
  let nd := nodes.map (fun n => (n.id, n))
  let g := edges.foldl (fun g e =>
    if e.label == "parent_of" then g.addEdge e.source e.target "parent_of"
    else if e.label == "spouse_of" then
      (g.addEdge e.source e.target "spouse_of").addEdge e.target e.source "spouse_of"
    else g) g0
  (g, nd)

/-- Dictionary lookup in the node-data assignment list (last write wins). -/
def lookupNode (nd : List (String × PersonNode)) (k : String) : Option PersonNode :=
  (nd.reverse.find? (fun p => p.1 == k)).map (fun p => p.2)

/-- Undirected projection (`G.to_undirected()`): adjacency in either
    direction. -/
def Graph.adjU (g : Graph) (u v : String) : Bool :=
  (g.rel u v).isSome || (g.rel v u).isSome

/-- Neighbours of `u` in the undirected projection, in vertex insertion
    order.  Modelled from the spec: §4.2 leaves the tie-break among equally
    short paths implementation-defined beyond determinism; this model scans
    vertices in insertion order. -/
def Graph.neighborsU (g : Graph) (u : String) : List String :=
  g.verts.filter (fun v => g.adjU u v)

/-- Modelled from the spec: the repository delegates shortest paths to the
    NetworkX library (an external collaborator, §9 asks implementations to
    inline a BFS over adjacency lists).  Queue entries are reversed paths
    (head = frontier node); nodes are marked visited when enqueued. -/
def bfsAux (g : Graph) (target : String) :
    Nat → List (List String) → List String → Option (List String)
  | 0, _, _ => none
  | _ + 1, [], _ => none
  | fuel + 1, p :: queue, visited =>
    match p with
    | [] => none
    | cur :: _ =>
      if cur = target then some p.reverse
      else
        let ns := (g.neighborsU cur).filter (fun v => !(visited.contains v))
        bfsAux g target fuel (queue ++ ns.map (fun v => v :: p)) (visited ++ ns)

/-- Fuel that certainly lets the BFS exhaust the graph: every node is
    enqueued at most once, so at most `|verts| + 1` queue pops happen. -/
def Graph.bfsFuel (g : Graph) : Nat :=
  (g.verts.length + 1) * (g.verts.length + 1) + 1

def bfs (g : Graph) (s t : String) : Option (List String) :=
  bfsAux g t g.bfsFuel [[s]] [s]

/-- `nx.shortest_path` over the undirected projection: raises
    `NodeNotFound` when either endpoint is missing from the graph; an
    unreachable target (`NetworkXNoPath`) is modelled as `none`. -/
def shortest_path (g : Graph) (s t : String) : Except PyErr (Option (List String)) :=
  if s ∈ g.verts ∧ t ∈ g.verts then .ok (bfs g s t) else .error .nodeNotFound

/-- `nx.has_path`: catches only `NetworkXNoPath`; `NodeNotFound`
    propagates. -/
def has_path (g : Graph) (s t : String) : Except PyErr Bool :=
  match shortest_path g s t with
  | .error e => .error e
  | .ok p => .ok p.isSome

/-- `_find_path`: catches `NetworkXNoPath` and returns `None`. -/
def find_path (g : Graph) (s t : String) : Except PyErr (Option (List String)) :=
  shortest_path g s t

/-- The per-hop action of a path signature. -/
inductive Action where
  | parent
  | child
  | spouse
deriving DecidableEq, Repr

/-- `_path_to_graph_signature`: project each consecutive hop `(u, v)` of the
    path onto `(action, gender of v)`.  `node_data[v]` raises `KeyError`
    when `v` has no node record; a hop matching none of the three relation
    tests is silently skipped (nothing is appended). -/
def path_to_graph_signature (g : Graph) (path : List String)
    (nd : List (String × PersonNode)) : Except PyErr (List (Action × String)) :=
  match path with
  | u :: v :: rest => do
    let vdata ← match lookupNode nd v with
      | some d => Except.ok d
      | none => Except.error PyErr.keyError
    let vg := vdata.gender.getD "M"
    let sigRest ← path_to_graph_signature g (v :: rest) nd
    if g.rel v u == some "parent_of" then .ok ((Action.parent, vg) :: sigRest)
    else if g.rel u v == some "parent_of" then .ok ((Action.child, vg) :: sigRest)
    else if g.rel u v == some "spouse_of" then .ok ((Action.spouse, vg) :: sigRest)
    else .ok sigRest
  | _ => .ok []

/-! ### Chain encoder (`_signature_to_chain`) -/

/-- `ACTION_MAP.get`: CSV code of a standalone (action, gender) step. -/
def actionCode (a : Action) (gender : String) : Option (List Char) :=
  match a, gender with
  | .parent, "M" => some ['f']
  | .parent, "F" => some ['m']
  | .child,  "M" => some ['s']
  | .child,  "F" => some ['d']
  | .spouse, "M" => some ['h']
  | .spouse, "F" => some ['w']
  | _, _ => none

/-- The x coordinate read through
    `node_data.get(id, {}).get("position", {}).get("x")`. -/
def xOf (nd : List (String × PersonNode)) (oid : Option String) : Option Int :=
  match oid with
  | none => none
  | some i =>
    match lookupNode nd i with
    | none => none
    | some n =>
      match n.position with
      | none => none
      | some p => p.x

/-- The y coordinate, read like `xOf`. -/
def yOf (nd : List (String × PersonNode)) (oid : Option String) : Option Int :=
  match oid with
  | none => none
  | some i =>
    match lookupNode nd i with
    | none => none
    | some n =>
      match n.position with
      | none => none
      | some p => p.y

/-- The sibling atom emitted for a collapsed `(parent, _)(child, g)` pair in
    the direct case, decided from the x positions of `path[i]` and
    `path[i+2]`. -/
def directSiblingAtom (gen : String) (fromx tox : Option Int) : List Char :=
  match fromx, tox with
  | some a, some b =>
    if a ≠ b then
      if gen == "M" then (if b < a then ['o','b'] else ['l','b'])
      else (if b < a then ['o','s'] else ['l','s'])
    else (if gen == "M" then ['x','b'] else ['x','s'])
  | _, _ => (if gen == "M" then ['x','b'] else ['x','s'])

/-- The `while i < len(signature)` scan of `_signature_to_chain`.  `sigLen`
    is the full signature length and `i` the absolute cursor, used only by
    the direct-sibling test `i == 0 and i + 2 == len(signature)`.  The
    source indexes `path[i]` and `path[i+2]` directly; this is modelled
    with `List.get?` (callers establish `len(path) = len(signature) + 1`,
    under which the indices are in range). -/
def chainLoop (sigLen : Nat) (path : List String)
    (nd : List (String × PersonNode)) :
    Nat → List (Action × String) → List (List Char)
  | _, [] => []
  | i, (Action.parent, _) :: (Action.child, nextg) :: rest2 =>
    let atom :=
      if i = 0 ∧ i + 2 = sigLen then
        directSiblingAtom nextg (xOf nd (path.get? i)) (xOf nd (path.get? (i + 2)))
      else (if nextg == "M" then ['x','b'] else ['x','s'])
    atom :: chainLoop sigLen path nd (i + 2) rest2
  | i, (a, gen) :: rest =>
    match actionCode a gen with
    | some c => c :: chainLoop sigLen path nd (i + 1) rest
    | none => chainLoop sigLen path nd (i + 1) rest

/-- `",".join(...)`. -/
def joinComma : List (List Char) → List Char
  | [] => []
  | [p] => p
  | p :: rest => p ++ ',' :: joinComma rest

/-- Split on a separator character (`str.split`, which yields `[""]` on the
    empty string). -/
def splitOnChar (sep : Char) : List Char → List (List Char)
  | [] => [[]]
  | c :: rest =>
    if c = sep then [] :: splitOnChar sep rest
    else
      match splitOnChar sep rest with
      | h :: t => (c :: h) :: t
      | [] => [[c]]

/-- `chain.split(",")`. -/
def splitComma (s : List Char) : List (List Char) :=
  splitOnChar ',' s

/-- `_signature_to_chain`.  The `sourceNode` argument is passed by the
    source but never used (spec §9 notes this open question). -/
def signature_to_chain (signature : List (Action × String))
    (_sourceNode : Option PersonNode) (path : List String)
    (nd : List (String × PersonNode)) : List Char :=
  let parts := chainLoop signature.length path nd 0 signature
  let lastp := parts.getLastD []
  if parts ≠ [] ∧ (lastp = ['s'] ∨ lastp = ['d']) ∧ 2 ≤ path.length then
    match xOf nd (path.get? 0), yOf nd (path.get? 0),
          xOf nd path.getLast?, yOf nd path.getLast? with
    | some sx, some sy, some tx, some ty =>
      if (sy - ty).natAbs < 100 ∧ sx ≠ tx then
        joinComma (parts.dropLast ++ [lastp ++ (if tx < sx then ['&','o'] else ['&','l'])])
      else joinComma parts
    | _, _, _, _ => joinComma parts
  else joinComma parts

/-! ### Variant generator (`_try_with_elder_younger`) -/

/-- The six sibling atoms. -/
def SIB_ATOMS : List (List Char) :=
  [['o','b'], ['l','b'], ['o','s'], ['l','s'], ['x','b'], ['x','s']]

/-- `VARIANTS_MAP`. -/
def VARIANTS_MAP : List (List Char × List (List Char)) :=
  [ (['o','b'], [['o','b'], ['x','b'], ['s','&','o']])
  , (['l','b'], [['l','b'], ['x','b'], ['s','&','l']])
  , (['o','s'], [['o','s'], ['x','s'], ['d','&','o']])
  , (['l','s'], [['l','s'], ['x','s'], ['d','&','l']])
  , (['x','b'], [['x','b'], ['s','&','o'], ['s','&','l'], ['o','b'], ['l','b']])
  , (['x','s'], [['x','s'], ['d','&','o'], ['d','&','l'], ['o','s'], ['l','s']]) ]

/-- Positions of sibling atoms within the split chain. -/
def siblingIndices (parts : List (List Char)) : List Nat :=
  (List.range parts.length).filter (fun i => parts.getD i [] ∈ SIB_ATOMS)

/-- The `seen`-set guarded append of `_generate` (`seen` always equals the
    set of elements of `results`). -/
def pushNew (acc : List (List Char)) (xs : List (List Char)) : List (List Char) :=
  xs.foldl (fun a r => if r ∈ a then a else a ++ [r]) acc

/-- `_generate`: substitute, at each sibling position in order, every
    replacement from `VARIANTS_MAP` and collect the joined chains,
    deduplicating while preserving first occurrence. -/
def generateVariants (parts : List (List Char)) :
    List Nat → List (List Char) → List (List Char)
  | [], current => [joinComma current]
  | pos :: restIdx, current =>
    let original := parts.getD pos []
    let vars := ((VARIANTS_MAP.find? (fun q => q.1 == original)).map (fun q => q.2)).getD [original]
    vars.foldl (fun results variant =>
      pushNew results (generateVariants parts restIdx (current.set pos variant))) []

/-- `p.endswith("&o") or p.endswith("&l")`. -/
def endsAmp (p : List Char) : Bool :=
  ['&','o'].isSuffixOf p || ['&','l'].isSuffixOf p

/-- `p.split("&")[0]`. -/
def stripAmp (p : List Char) : List Char :=
  p.takeWhile (fun c => c ≠ '&')

/-- `_try_with_elder_younger`: the ordered variant list for matching.  Both
    node arguments are unused by the source body. -/
def try_with_elder_younger (chain : List Char)
    (_sourceNode _targetNode : Option PersonNode) : List (List Char) :=
  let parts := splitComma chain
  let sibIdx := siblingIndices parts
  let hasSuffix := endsAmp (parts.getLastD [])
  if sibIdx = [] ∧ hasSuffix = false then [chain]
  else
    let base := if sibIdx ≠ [] then generateVariants parts sibIdx parts else [chain]
    let all := base.foldl (fun acc v =>
      let acc1 := if v ∈ acc then acc else acc ++ [v]
      let vparts := splitComma v
      let lastp := vparts.getLastD []
      if endsAmp lastp then
        let s := joinComma (vparts.dropLast ++ [stripAmp lastp])
        if s ∈ acc1 then acc1 else acc1 ++ [s]
      else acc1) []
    let all2 := if chain ∈ all then all.erase chain else all
    chain :: all2

/-! ### Rank decorator (`_get_rank_among_siblings`, `_get_direct_rank`,
`_apply_rank_to_title`, `_is_direct_lineage`) -/

/-- First-occurrence deduplication, used to model iteration over NetworkX
    adjacency (one entry per neighbour, first-insertion order). -/
def dedupKeepFirst (xs : List String) : List String :=
  xs.foldl (fun acc v => if v ∈ acc then acc else acc ++ [v]) []

/-- `G.predecessors(v)`. -/
def Graph.predecessors (g : Graph) (v : String) : List String :=
  dedupKeepFirst (g.edges.filterMap (fun e => if e.2.1 == v then some e.1 else none))

/-- `G.successors(u)`. -/
def Graph.successors (g : Graph) (u : String) : List String :=
  dedupKeepFirst (g.edges.filterMap (fun e => if e.1 == u then some e.2.1 else none))

/-- The `get_x` key of `_get_direct_rank`:
    `node_data.get(nid, {}).get("position", {}).get("x", 0)`. -/
def rankX (nd : List (String × PersonNode)) (nid : String) : Int :=
  match lookupNode nd nid with
  | none => 0
  | some n =>
    match n.position with
    | none => 0
    | some p => p.x.getD 0

/-- Stable insertion by the x key (ties keep the earlier element first). -/
def insertByX (nd : List (String × PersonNode)) (x : String) :
    List String → List String
  | [] => [x]
  | y :: ys =>
    if rankX nd x ≤ rankX nd y then x :: y :: ys else y :: insertByX nd x ys

/-- Python `sorted(..., key=get_x)` is a stable sort, modelled by stable
    insertion sort (stable sorts agree extensionally).  The source feeds the
    sort from a Python set, whose iteration order is unspecified, so the
    order of x-ties is unspecified in the source; the model fixes the
    first-insertion order of `dedupKeepFirst`. -/
def sortByX (nd : List (String × PersonNode)) : List String → List String
  | [] => []
  | x :: xs => insertByX nd x (sortByX nd xs)

/-- `_get_direct_rank`: rank of `target_id` among the same-gender children
    of its parents, sorted by x ascending.  Note the source compares
    `child.get("gender")` (no default) with `target.get("gender", "M")`. -/
def get_direct_rank (g : Graph) (nd : List (String × PersonNode))
    (target_id : String) : Nat × Nat :=
  match lookupNode nd target_id with
  | none => (0, 0)
  | some target =>
    let tg := target.gender.getD "M"
    let parents := (g.predecessors target_id).filter
      (fun p => g.rel p target_id == some "parent_of")
    if parents = [] then (0, 0)
    else
      let siblings := dedupKeepFirst (parents.foldl (fun acc pid =>
        acc ++ (g.successors pid).filter (fun cid =>
          g.rel pid cid == some "parent_of" &&
          (match lookupNode nd cid with
           | some c => c.gender == some tg
           | none => false))) [])
      if siblings.length ≤ 1 then (0, 0)
      else
        let sorted := sortByX nd siblings
        match sorted.findIdx? (fun s => s == target_id) with
        | some i => (i + 1, sorted.length)
        | none => (0, 0)

/-- `_get_rank_among_siblings`: direct rank, falling back to the first
    spouse (successors first, then predecessors) whose cohort has at least
    two members. -/
def get_rank_among_siblings (g : Graph) (nd : List (String × PersonNode))
    (target_id : String) : Nat × Nat :=
  let rt := get_direct_rank g nd target_id
  if 2 ≤ rt.2 then rt
  else
    let viaSucc := (g.successors target_id).findSome? (fun n =>
      if g.rel target_id n == some "spouse_of" then
        let p := get_direct_rank g nd n
        if 2 ≤ p.2 then some p else none
      else none)
    match viaSucc with
    | some p => p
    | none =>
      match (g.predecessors target_id).findSome? (fun n =>
        if g.rel n target_id == some "spouse_of" then
          let p := get_direct_rank g nd n
          if 2 ≤ p.2 then some p else none
        else none) with
      | some p => p
      | none => (0, 0)

/-- `_CN_NUMBERS.get(r, str(r))`. -/
def cnNum (r : Nat) : String :=
  match r with
  | 1 => "大"
  | 2 => "二"
  | 3 => "三"
  | 4 => "四"
  | 5 => "五"
  | 6 => "六"
  | 7 => "七"
  | 8 => "八"
  | 9 => "九"
  | 10 => "十"
  | _ => toString r

/-- `_RANK_RULES`: per-title ordinal rewrite closures. -/
def RANK_RULES : List (String × (Nat → String)) :=
  [ ("哥哥", fun r => cnNum r ++ "哥")
  , ("弟弟", fun r => cnNum r ++ "弟")
  , ("姐姐", fun r => cnNum r ++ "姐")
  , ("妹妹", fun r => cnNum r ++ "妹")
  , ("伯父", fun r => cnNum r ++ "伯")
  , ("叔叔", fun r => cnNum r ++ "叔")
  , ("姑姑", fun r => cnNum r ++ "姑")
  , ("舅舅", fun r => cnNum r ++ "舅")
  , ("姨妈", fun r => cnNum r ++ "姨")
  , ("伯母", fun r => cnNum r ++ "伯母")
  , ("婶婶", fun r => cnNum r ++ "婶")
  , ("舅妈", fun r => cnNum r ++ "舅妈")
  , ("姨夫", fun r => cnNum r ++ "姨夫")
  , ("堂哥", fun r => "堂" ++ cnNum r ++ "哥")
  , ("堂弟", fun r => "堂" ++ cnNum r ++ "弟")
  , ("堂姐", fun r => "堂" ++ cnNum r ++ "姐")
  , ("堂妹", fun r => "堂" ++ cnNum r ++ "妹")
  , ("表哥", fun r => "表" ++ cnNum r ++ "哥")
  , ("表弟", fun r => "表" ++ cnNum r ++ "弟")
  , ("表姐", fun r => "表" ++ cnNum r ++ "姐")
  , ("表妹", fun r => "表" ++ cnNum r ++ "妹")
  , ("爷爷", fun r => cnNum r ++ "爷爷")
  , ("奶奶", fun r => cnNum r ++ "奶奶")
  , ("外公", fun r => cnNum r ++ "外公")
  , ("外婆", fun r => cnNum r ++ "外婆") ]

/-- `_apply_rank_to_title`. -/
def apply_rank_to_title (title : String) (rank total : Nat) : String :=
  if total < 2 ∨ rank < 1 then title
  else
    match RANK_RULES.find? (fun q => q.1 == title) with
    | some q => q.2 rank
    | none => title

/-- `_is_direct_lineage`: true when every signature action is parent or
    child (note: a parent-then-child sibling hop also satisfies this). -/
def is_direct_lineage (signature : List (Action × String)) : Bool :=
  signature.all (fun st => st.1 == Action.parent || st.1 == Action.child)

/-! ### Rule store and pattern matching (`kinship_loader.py`) -/

/-- A parsed rule row: title, aliases and the raw chain pattern. -/
structure RuleInfo where
  title : String
  aliases : List String
  chain : List Char
deriving DecidableEq, Repr

/-- Modelled from the spec: the CSV data file
    (`data/relationship_table.csv`) is not part of the repository source,
    so the loaded store — the `KinshipData` instance `infer_kinship`
    obtains from `get_kinship_data()` — is an explicit parameter holding
    the three collections the core matcher consults. -/
structure KinshipData where
  primary_rules : List (List Char × RuleInfo)
  combined_rules : List RuleInfo
  branch_rules : List RuleInfo
deriving DecidableEq, Repr

/-- `KinshipData.lookup_primary`: exact dictionary lookup (keys are
    distinct after loading, so first-match lookup models `dict.get`). -/
def KinshipData.lookup_primary (d : KinshipData) (chain : List Char) : Option RuleInfo :=
  (d.primary_rules.find? (fun q => q.1 == chain)).map (fun q => q.2)

/-- A compiled pattern segment: the regex built by
    `_combined_pattern_to_regex` is a concatenation of escaped single
    characters and non-capturing alternation groups. -/
inductive Seg where
  | lit (c : Char)
  | alts (choices : List (List Char))
deriving DecidableEq, Repr

/-- `_combined_pattern_to_regex`: scan the pattern; `[...]` becomes an
    alternation of its `|`-separated literal alternatives (the source finds
    the first `]` after the `[`; a `[` with no closing `]` raises
    `ValueError`, which is caught and demotes the pattern to never-match,
    here `none`).  Fuelled: each step consumes at least one character, so
    `|pattern| + 1` fuel always suffices. -/
def parseSegs : Nat → List Char → Option (List Seg)
  | 0, _ => none
  | _ + 1, [] => some []
  | fuel + 1, c :: rest =>
    if c = '[' then
      match rest.dropWhile (fun d => d ≠ ']') with
      | _ :: after =>
        (parseSegs fuel after).map (fun segs =>
          Seg.alts (splitOnChar '|' (rest.takeWhile (fun d => d ≠ ']'))) :: segs)
      | [] => none
    else
      (parseSegs fuel rest).map (fun segs => Seg.lit c :: segs)

/-- `regex.fullmatch`: the whole chain is a concatenation matching the
    segments, each alternation group contributing one of its choices. -/
def segsMatch : List Seg → List Char → Bool
  | [], s => s == []
  | Seg.lit c :: rest, s =>
    match s with
    | d :: s2 => c == d && segsMatch rest s2
    | [] => false
  | Seg.alts choices :: rest, s =>
    choices.any (fun a => a.isPrefixOf s && segsMatch rest (s.drop a.length))

/-- `_match_combined_pattern` (the lazy regex cache of the source is a
    semantic no-op and is not modelled). -/
def match_combined_pattern (pattern chain : List Char) : Bool :=
  match parseSegs (pattern.length + 1) pattern with
  | none => false
  | some segs => segsMatch segs chain

/-- `KinshipData.lookup_combined`: first matching combined rule. -/
def KinshipData.lookup_combined (d : KinshipData) (chain : List Char) : Option RuleInfo :=
  d.combined_rules.find? (fun r => match_combined_pattern r.chain chain)

/-- The left brace character (ASCII 123). -/
def lbrace : Char := Char.ofNat 123

/-- The right brace character (ASCII 125). -/
def rbrace : Char := Char.ofNat 125

/-- A template token: left brace, name, right brace. -/
def braceTok (name : List Char) : List Char := lbrace :: name ++ [rbrace]

/-- `TEMPLATE_VARS`: the closed template-variable catalog. -/
def TEMPLATE_VARS : List (List Char × List (List Char)) :=
  [ (braceTok ['G','0'], [[]])
  , (braceTok ['G','1'], [['f'], ['m']])
  , (braceTok ['G','1','M'], [['f']])
  , (braceTok ['G','1','W'], [['m']])
  , (braceTok ['G','2'], [['f',',','f'], ['f',',','m'], ['m',',','f'], ['m',',','m']])
  , (braceTok ['M','0'], [['h'], ['w']])
  , (braceTok ['M','1','M'], [['h',',','f'], ['w',',','f']])
  , (braceTok ['M','1','W'], [['h',',','m'], ['w',',','m']])
  , (braceTok ['M','2','M'],
      [ ['h',',','f',',','f'], ['h',',','f',',','m'], ['w',',','f',',','f'], ['w',',','f',',','m']
      , ['h',',','m',',','f'], ['h',',','m',',','m'], ['w',',','m',',','f'], ['w',',','m',',','m'] ])
  , (braceTok ['M','2','W'],
      [ ['h',',','m',',','f'], ['h',',','m',',','m'], ['w',',','m',',','f'], ['w',',','m',',','m'] ])
  , (braceTok ['M','-','1'], [['s'], ['d']]) ]

/-- The leftmost brace-token occurrence, as found by the search for a left
    brace, then one or more non-right-brace characters, then a right brace
    (the regex of `_expand_template`).  Returns `(before, name, after)`
    with `pattern = before ++ braceTok name ++ after`. -/
def splitFirstBrace : List Char → Option (List Char × List Char × List Char)
  | [] => none
  | c :: rest =>
    if c = lbrace then
      match rest.dropWhile (fun d => d ≠ rbrace) with
      | _ :: after =>
        let x := rest.takeWhile (fun d => d ≠ rbrace)
        if x ≠ [] then some ([], x, after)
        else (splitFirstBrace rest).map (fun q => (c :: q.1, q.2.1, q.2.2))
      | [] => (splitFirstBrace rest).map (fun q => (c :: q.1, q.2.1, q.2.2))
    else (splitFirstBrace rest).map (fun q => (c :: q.1, q.2.1, q.2.2))

/-- `pattern[:match.start()].rstrip(',')`. -/
def rstripComma (s : List Char) : List Char :=
  (s.reverse.dropWhile (fun c => c = ',')).reverse

/-- `pattern[match.end():].lstrip(',')`. -/
def lstripComma (s : List Char) : List Char :=
  s.dropWhile (fun c => c = ',')

/-- `_expand_template`: recursively substitute the leftmost catalog
    variable; an empty expansion splices out the neighbouring commas.  The
    source recurses without fuel; every catalog replacement is strictly
    shorter than its token and the empty-expansion splice also shortens the
    pattern, so `|pattern| + 1` fuel always suffices. -/
def expand_template : Nat → List Char → List (List Char)
  | 0, p => [p]
  | fuel + 1, p =>
    match splitFirstBrace p with
    | none => [p]
    | some (before, x, after) =>
      match TEMPLATE_VARS.find? (fun q => q.1 == braceTok x) with
      | none => [p]
      | some q =>
        (q.2.map (fun rep =>
          let newp :=
            if rep ≠ [] then before ++ rep ++ after
            else
              let b := rstripComma before
              let a := lstripComma after
              if b ≠ [] ∧ a ≠ [] then b ++ ',' :: a else b ++ a
          expand_template fuel newp)).flatten

/-- `_match_branch_pattern`: expand the template, then try the combined
    (disjunction) match on every concrete pattern. -/
def match_branch_pattern (pattern chain : List Char) : Bool :=
  (expand_template (pattern.length + 1) pattern).any
    (fun e => match_combined_pattern e chain)

/-- `KinshipData.lookup_branch`: first matching branch rule. -/
def KinshipData.lookup_branch (d : KinshipData) (chain : List Char) : Option RuleInfo :=
  d.branch_rules.find? (fun r => match_branch_pattern r.chain chain)

/-! ### Result assembly (`infer_kinship`) -/

/-- The `step_names` glossary of `infer_kinship`. -/
def STEP_NAMES : List (List Char × List Char) :=
  [ (['f'], "父".toList)
  , (['m'], "母".toList)
  , (['s'], "子".toList)
  , (['d'], "女".toList)
  , (['h'], "夫".toList)
  , (['w'], "妻".toList)
  , (['x','b'], "兄弟".toList)
  , (['x','s'], "姐妹".toList)
  , (['o','b'], "兄".toList)
  , (['l','b'], "弟".toList)
  , (['o','s'], "姐".toList)
  , (['l','s'], "妹".toList)
  , (['s','&','o'], "子(长)".toList)
  , (['s','&','l'], "子(幼)".toList)
  , (['d','&','o'], "女(长)".toList)
  , (['d','&','l'], "女(幼)".toList) ]

/-- `step_names.get(p, step_names.get(p.split("&")[0], p))`. -/
def describePart (p : List Char) : List Char :=
  match STEP_NAMES.find? (fun q => q.1 == p) with
  | some q => q.2
  | none =>
    match STEP_NAMES.find? (fun q => q.1 == stripAmp p) with
    | some q => q.2
    | none => p

/-- `sep.join(...)`. -/
def joinWith (sep : List Char) : List (List Char) → List Char
  | [] => []
  | [a] => a
  | a :: rest => a ++ sep ++ joinWith sep rest

/-- The human-readable path description built in `infer_kinship`. -/
def path_desc_of (chain : List Char) : List Char :=
  joinWith [' ', '→', ' '] ((splitComma chain).map describePart)

/-- `path_desc.replace(" → ", "的")`: left-to-right non-overlapping
    replacement of the three-character separator. -/
def replaceArrow : List Char → List Char
  | ' ' :: '→' :: ' ' :: rest => '的' :: replaceArrow rest
  | c :: rest => c :: replaceArrow rest
  | [] => []

/-- The result record of `infer_kinship`. -/
structure KinResult where
  title : String
  aliases : List String
  chain : List Char
  match_type : String
  path_desc : List Char
deriving DecidableEq, Repr

/-- The fallback branch of `infer_kinship` (tier C9): synthesize a
    descriptive title from the path description; aliases stay empty. -/
def fallbackResult (chain : List Char) (pd : List Char) : KinResult :=
  { title := if pd ≠ [] then String.mk (replaceArrow pd) else "远房亲戚"
    aliases := []
    chain := chain
    match_type := "fallback"
    path_desc := pd }

/-- One matching loop of `infer_kinship`: the first variant, in order, on
    which the lookup hits. -/
def findVariantMatch (variants : List (List Char))
    (look : List Char → Option RuleInfo) : Option (List Char × RuleInfo) :=
  match variants with
  | [] => none
  | v :: rest =>
    match look v with
    | some r => some (v, r)
    | none => findVariantMatch rest look

/-- The three matching tiers of `infer_kinship`: the source runs three
    sequential loops — every variant against `lookup_primary`, then every
    variant against `lookup_combined`, then against `lookup_branch` — and
    returns from the first loop that hits.  This helper yields the tier
    label, the matching variant and its rule. -/
def tierMatch (data : KinshipData) (variants : List (List Char)) :
    Option (String × List Char × RuleInfo) :=
  match findVariantMatch variants data.lookup_primary with
  | some (v, r) => some ("primary", v, r)
  | none =>
    match findVariantMatch variants data.lookup_combined with
    | some (v, r) => some ("combined", v, r)
    | none =>
      match findVariantMatch variants data.lookup_branch with
      | some (v, r) => some ("branch", v, r)
      | none => none

/-- `infer_kinship`: the full pipeline.  `data` is the rule store obtained
    from `get_kinship_data()` (a parameter here, see `KinshipData`). -/
def infer_kinship (source_id target_id : String) (nodes : List PersonNode)
    (edges : List Edge) (data : KinshipData) : Except PyErr KinResult :=
  let gn := build_graph nodes edges
  let g := gn.1
  let nd := gn.2
  match has_path g source_id target_id with
  | .error e => .error e
  | .ok false =>
    .ok { title := "没有亲戚关系", aliases := [], chain := [],
          match_type := "none", path_desc := "两人之间没有路径连接".toList }
  | .ok true =>
    match find_path g source_id target_id with
    | .error e => .error e
    | .ok none =>
      .ok { title := "无法计算称呼", aliases := [], chain := [],
            match_type := "error", path_desc := [] }
    | .ok (some path) =>
      match path_to_graph_signature g path nd with
      | .error e => .error e
      | .ok signature =>
        let chain := signature_to_chain signature (lookupNode nd source_id) path nd
        let pd := path_desc_of chain
        let rt := if is_direct_lineage signature then ((0 : Nat), (0 : Nat))
                  else get_rank_among_siblings g nd target_id
        let variants := try_with_elder_younger chain
          (lookupNode nd source_id) (lookupNode nd target_id)
        match tierMatch data variants with
        | some (tier, v, r) =>
          .ok { title := apply_rank_to_title r.title rt.1 rt.2
                aliases := r.aliases
                chain := v
                match_type := tier
                path_desc := pd }
        | none => .ok (fallbackResult chain pd)

/-! ### Definitions used only by theorem statements and proofs -/

/-- The two relation invariants of built graphs: every stored relation is
    `parent_of` or `spouse_of`, and a `spouse_of` relation always has an
    opposite-direction edge. -/
def RelInv (g : Graph) : Prop :=
  (∀ u v r, g.rel u v = some r → r = "parent_of" ∨ r = "spouse_of") ∧
  (∀ u v, g.rel u v = some "spouse_of" → (g.rel v u).isSome)

/-- Invariant of the BFS queue: each entry is a nonempty reversed path
    starting (in reversed order: ending) at the source, chained by
    undirected adjacency, with all its nodes in the graph. -/
def RevPathOK (g : Graph) (s : String) (p : List String) : Prop :=
  p ≠ [] ∧ p.getLast? = some s ∧
    List.Chain' (fun a b => g.adjU b a = true) p ∧ ∀ x ∈ p, x ∈ g.verts

/-- The closed chain alphabet of spec section 3. -/
def CHAIN_ALPHABET : List (List Char) :=
  [ ['f'], ['m'], ['s'], ['d'], ['h'], ['w']
  , ['o','b'], ['l','b'], ['o','s'], ['l','s'], ['x','b'], ['x','s']
  , ['s','&','o'], ['s','&','l'], ['d','&','o'], ['d','&','l'] ]

/-- Index-free description of the encoder scan used to state the
    indirect-sibling property: every parent-then-child pair collapses to
    the unknown-order sibling atom, independently of any coordinates. -/
def collapseList : List (Action × String) → List (List Char)
  | [] => []
  | (Action.parent, _) :: (Action.child, nextg) :: rest2 =>
    (if nextg == "M" then ['x','b'] else ['x','s']) :: collapseList rest2
  | (a, gen) :: rest =>
    match actionCode a gen with
    | some c => c :: collapseList rest
    | none => collapseList rest

/-- Bracket-group scan state of a combined pattern prefix: `true` = outside
    any `[...]` group.  Outside, a `[` enters a group; inside, the first
    `]` leaves it (matching how `_combined_pattern_to_regex` consumes
    groups up to the first closing bracket). -/
def scanOutside : List Char → Bool → Bool
  | [], st => st
  | c :: rest, st =>
    scanOutside rest (if st then !(c = '[') else (c = ']'))

/-- A token name is clean when it is nonempty and free of brace and
    bracket characters. -/
def TokClean (x : List Char) : Prop :=
  x ≠ [] ∧ ∀ c ∈ x, c ≠ lbrace ∧ c ≠ rbrace ∧ c ≠ '[' ∧ c ≠ ']'

/-- The pattern contains, outside any bracket group, a clean template
    token that is not in the catalog. -/
def UnknownOutside (p : List Char) : Prop :=
  ∃ u x v, p = u ++ braceTok x ++ v ∧ scanOutside u true = true ∧
    TokClean x ∧ TEMPLATE_VARS.find? (fun q => q.1 == braceTok x) = none

/-! ### Lemmas about the graph builder -/

theorem mem_addVert {vs : List String} {v w : String} :
    w ∈ addVert vs v ↔ w ∈ vs ∨ w = v := by
  unfold addVert
  split
  · constructor
    · exact Or.inl
    · rintro (h | rfl)
      · exact h
      · assumption
  · simp [List.mem_append]

theorem rel_addEdge (g : Graph) (a b r u v : String) :
    (g.addEdge a b r).rel u v = if u = a ∧ v = b then some r else g.rel u v := by
  unfold Graph.addEdge Graph.rel
  simp only [List.reverse_append, List.reverse_cons, List.reverse_nil,
    List.nil_append, List.cons_append, List.find?]
  by_cases h : u = a ∧ v = b
  · obtain ⟨rfl, rfl⟩ := h
    simp
  · have : (a == u && b == v) = false := by
      rcases Decidable.em (u = a) with h1 | h1
      · subst h1
        have h2 : ¬ v = b := fun hv => h ⟨rfl, hv⟩
        simp [beq_iff_eq, Ne.symm h2]
      · simp [beq_iff_eq, Ne.symm h1]
    simp [this, h]

theorem verts_addEdge (g : Graph) (a b r : String) :
    (g.addEdge a b r).verts = addVert (addVert g.verts a) b := rfl

/-- The graph after only `add_node` calls has no edges. -/
theorem edges_foldl_addNode (nodes : List PersonNode) :
    (nodes.foldl (fun g n => g.addNode n.id) Graph.empty).edges = [] := by
  suffices h : ∀ (g : Graph), (nodes.foldl (fun g n => g.addNode n.id) g).edges = g.edges by
    exact h Graph.empty
  induction nodes with
  | nil => intro g; rfl
  | cons n rest ih => intro g; exact ih (g.addNode n.id)

theorem relInv_addParent {g : Graph} (hg : RelInv g) (a b : String) :
    RelInv (g.addEdge a b "parent_of") := by
  constructor
  · intro u v r h
    rw [rel_addEdge] at h
    split at h
    · exact Or.inl (Option.some.inj h).symm
    · exact hg.1 u v r h
  · intro u v h
    rw [rel_addEdge] at h
    rw [rel_addEdge]
    split at h
    · exact absurd (Option.some.inj h) (by simp)
    · have := hg.2 u v h
      split
      · simp
      · exact this

theorem relInv_addSpousePair {g : Graph} (hg : RelInv g) (a b : String) :
    RelInv ((g.addEdge a b "spouse_of").addEdge b a "spouse_of") := by
  constructor
  · intro u v r h
    rw [rel_addEdge, rel_addEdge] at h
    split at h
    · exact Or.inr (Option.some.inj h).symm
    · split at h
      · exact Or.inr (Option.some.inj h).symm
      · exact hg.1 u v r h
  · intro u v h
    rw [rel_addEdge, rel_addEdge] at h
    rw [rel_addEdge, rel_addEdge]
    split at h
    · rename_i h1
      obtain ⟨rfl, rfl⟩ := h1
      split
      · simp
      · simp
    · split at h
      · rename_i h2
        obtain ⟨rfl, rfl⟩ := h2
        simp
      · have := hg.2 u v h
        split
        · simp
        · split
          · simp
          · exact this

theorem relInv_foldl (edges : List Edge) {g : Graph} (hg : RelInv g) :
    RelInv (edges.foldl (fun g e =>
      if e.label == "parent_of" then g.addEdge e.source e.target "parent_of"
      else if e.label == "spouse_of" then
        (g.addEdge e.source e.target "spouse_of").addEdge e.target e.source "spouse_of"
      else g) g) := by
  induction edges generalizing g with
  | nil => exact hg
  | cons e rest ih =>
    rw [List.foldl_cons]
    apply ih
    split
    · exact relInv_addParent hg _ _
    · split
      · exact relInv_addSpousePair hg _ _
      · exact hg

theorem relInv_empty_edges {g : Graph} (he : g.edges = []) : RelInv g := by
  have hrel : ∀ u v, g.rel u v = none := by
    intro u v
    unfold Graph.rel
    rw [he]
    rfl
  constructor
  · intro u v r h
    rw [hrel] at h
    exact absurd h (by simp)
  · intro u v h
    rw [hrel] at h
    exact absurd h (by simp)

theorem relInv_build (nodes : List PersonNode) (edges : List Edge) :
    RelInv (build_graph nodes edges).1 :=
  relInv_foldl edges (relInv_empty_edges (edges_foldl_addNode nodes))

/-- In a built graph, every undirected-adjacent hop `(u, v)` satisfies one
    of the three relation tests of `_path_to_graph_signature`. -/
theorem adjU_hop_test {g : Graph} (hg : RelInv g) {u v : String}
    (h : g.adjU u v = true) :
    g.rel v u = some "parent_of" ∨ g.rel u v = some "parent_of" ∨
      g.rel u v = some "spouse_of" := by
  unfold Graph.adjU at h
  rw [Bool.or_eq_true] at h
  rcases h with h | h
  · obtain ⟨r, hr⟩ := Option.isSome_iff_exists.mp h
    rcases hg.1 u v r hr with rfl | rfl
    · exact Or.inr (Or.inl hr)
    · exact Or.inr (Or.inr hr)
  · obtain ⟨r, hr⟩ := Option.isSome_iff_exists.mp h
    rcases hg.1 v u r hr with rfl | rfl
    · exact Or.inl hr
    · obtain ⟨r2, hr2⟩ := Option.isSome_iff_exists.mp (hg.2 v u hr)
      rcases hg.1 u v r2 hr2 with rfl | rfl
      · exact Or.inr (Or.inl hr2)
      · exact Or.inr (Or.inr hr2)

/-! ### Lemmas about the BFS path finder -/

theorem mem_neighborsU {g : Graph} {u v : String} :
    v ∈ g.neighborsU u ↔ v ∈ g.verts ∧ g.adjU u v = true := by
  simp [Graph.neighborsU, List.mem_filter]

theorem bfsAux_sound (g : Graph) (t s : String) :
    ∀ (fuel : Nat) (queue : List (List String)) (visited : List String)
      (p : List String),
      (∀ q ∈ queue, RevPathOK g s q) →
      bfsAux g t fuel queue visited = some p →
      p ≠ [] ∧ p.head? = some s ∧ p.getLast? = some t ∧
        List.Chain' (fun a b => g.adjU a b = true) p ∧ ∀ x ∈ p, x ∈ g.verts := by
  intro fuel
  induction fuel with
  | zero => intro queue visited p _ h; exact absurd h (by simp [bfsAux])
  | succ fuel ih =>
    intro queue visited p hq h
    match hqe : queue with
    | [] => exact absurd h (by simp [bfsAux])
    | q :: rest =>
      subst hqe
      have hq0 := hq q (by simp)
      obtain ⟨hne, hlast, hchain, hmem⟩ := hq0
      match hqq : q with
      | [] => exact absurd rfl (hqq ▸ hne)
      | cur :: q2 =>
        subst hqq
        rw [bfsAux] at h
        by_cases hcur : cur = t
        · rw [if_pos hcur] at h
          have hp : p = (cur :: q2).reverse := (Option.some.inj h).symm
          subst hp
          refine ⟨by simp, ?_, ?_, ?_, ?_⟩
          · rw [List.head?_reverse]; exact hlast
          · rw [List.getLast?_reverse]; simp [hcur]
          · rw [List.chain'_reverse]
            exact hchain.imp (fun {a b} hab => hab)
          · intro x hx
            rw [List.mem_reverse] at hx
            exact hmem x hx
        · rw [if_neg hcur] at h
          refine ih _ _ p ?_ h
          intro q3 hq3
          rw [List.mem_append] at hq3
          rcases hq3 with hq3 | hq3
          · exact hq q3 (by simp [hq3])
          · rw [List.mem_map] at hq3
            obtain ⟨v, hv, rfl⟩ := hq3
            rw [List.mem_filter] at hv
            have hv2 := mem_neighborsU.mp hv.1
            refine ⟨by simp, ?_, ?_, ?_⟩
            · rw [List.getLast?_cons_cons]
              exact hlast
            · exact List.Chain'.cons hv2.2 hchain
            · intro x hx
              rcases List.mem_cons.mp hx with rfl | hx
              · exact hv2.1
              · exact hmem x hx

theorem bfs_sound {g : Graph} {s t : String} {p : List String}
    (hs : s ∈ g.verts) (h : bfs g s t = some p) :
    p ≠ [] ∧ p.head? = some s ∧ p.getLast? = some t ∧
      List.Chain' (fun a b => g.adjU a b = true) p ∧ ∀ x ∈ p, x ∈ g.verts := by
  refine bfsAux_sound g t s g.bfsFuel [[s]] [s] p ?_ h
  intro q hq
  rw [List.mem_singleton] at hq
  subst hq
  refine ⟨by simp, by simp, by simp, ?_⟩
  intro x hx
  rw [List.mem_singleton] at hx
  subst hx
  exact hs

theorem path_len_ge_two {p : List String} {s t : String} (hst : s ≠ t)
    (hh : p.head? = some s) (hl : p.getLast? = some t) : 2 ≤ p.length := by
  match p with
  | [] => simp at hh
  | [x] =>
    simp [List.head?] at hh
    simp [List.getLast?] at hl
    subst hh
    exact absurd hl hst
  | x :: y :: rest => simp only [List.length_cons]; omega

/-! ### Lemmas about node lookup and graph vertices -/

theorem lookupNode_isSome_of_mem {nodes : List PersonNode} {v : String}
    (h : v ∈ nodes.map (fun n => n.id)) :
    (lookupNode (nodes.map (fun n => (n.id, n))) v).isSome := by
  unfold lookupNode
  have hfs : ((nodes.map (fun n => (n.id, n))).reverse.find? (fun p => p.1 == v)).isSome := by
    rw [List.find?_isSome]
    rw [List.mem_map] at h
    obtain ⟨n, hn, rfl⟩ := h
    refine ⟨(n.id, n), ?_, by simp⟩
    rw [List.mem_reverse, List.mem_map]
    exact ⟨n, hn, rfl⟩
  obtain ⟨pair, hp⟩ := Option.isSome_iff_exists.mp hfs
  rw [hp]
  rfl

theorem lookupNode_mem {nd : List (String × PersonNode)} {k : String}
    {d : PersonNode} (h : lookupNode nd k = some d) : (k, d) ∈ nd := by
  unfold lookupNode at h
  rw [Option.map_eq_some'] at h
  obtain ⟨pair, hfind, rfl⟩ := h
  have hmem := List.mem_of_find?_eq_some hfind
  have hp := List.find?_some hfind
  rw [List.mem_reverse] at hmem
  have heq : pair.1 = k := by simpa [beq_iff_eq] using hp
  rw [← heq]
  exact hmem

theorem mem_verts_foldl_addNode (nodes : List PersonNode) :
    ∀ (g : Graph) (v : String),
      v ∈ (nodes.foldl (fun g n => g.addNode n.id) g).verts ↔
        v ∈ g.verts ∨ v ∈ nodes.map (fun n => n.id) := by
  induction nodes with
  | nil => intro g v; simp
  | cons n rest ih =>
    intro g v
    rw [List.foldl_cons, ih]
    simp only [Graph.addNode, mem_addVert, List.map_cons, List.mem_cons]
    tauto

theorem verts_build_subset {nodes : List PersonNode} {edges : List Edge}
    (hend : ∀ e ∈ edges, (e.label = "parent_of" ∨ e.label = "spouse_of") →
      e.source ∈ nodes.map (fun n => n.id) ∧ e.target ∈ nodes.map (fun n => n.id)) :
    ∀ v ∈ (build_graph nodes edges).1.verts, v ∈ nodes.map (fun n => n.id) := by
  unfold build_graph
  simp only []
  have base : ∀ v ∈ (nodes.foldl (fun g n => g.addNode n.id) Graph.empty).verts,
      v ∈ nodes.map (fun n => n.id) := by
    intro v hv
    rcases (mem_verts_foldl_addNode nodes Graph.empty v).mp hv with h | h
    · exact absurd h (by simp [Graph.empty])
    · exact h
  revert base
  generalize (nodes.foldl (fun g n => g.addNode n.id) Graph.empty) = g0
  induction edges generalizing g0 with
  | nil => intro base v hv; exact base v hv
  | cons e rest ih =>
    intro base v hv
    rw [List.foldl_cons] at hv
    refine ih (fun e2 he2 => hend e2 (by simp [he2])) _ ?_ v hv
    intro w hw
    have hende := hend e (by simp)
    split at hw
    · rename_i hlab
      rw [beq_iff_eq] at hlab
      rw [verts_addEdge] at hw
      rcases mem_addVert.mp hw with hw | rfl
      · rcases mem_addVert.mp hw with hw | rfl
        · exact base w hw
        · exact (hende (Or.inl hlab)).1
      · exact (hende (Or.inl hlab)).2
    · split at hw
      · rename_i hlab hlab2
        rw [beq_iff_eq] at hlab2
        rw [verts_addEdge, verts_addEdge] at hw
        rcases mem_addVert.mp hw with hw | rfl
        · rcases mem_addVert.mp hw with hw | rfl
          · rcases mem_addVert.mp hw with hw | rfl
            · rcases mem_addVert.mp hw with hw | rfl
              · exact base w hw
              · exact (hende (Or.inr hlab2)).1
            · exact (hende (Or.inr hlab2)).2
          · exact (hende (Or.inr hlab2)).2
        · exact (hende (Or.inr hlab2)).1
      · exact base w hw

/-! ### Extraction lemma: on built graphs no hop is skipped -/

theorem path_sig_ok {g : Graph} (hg : RelInv g) (nd : List (String × PersonNode)) :
    ∀ (path : List String),
      List.Chain' (fun a b => g.adjU a b = true) path →
      (∀ v ∈ path.tail, (lookupNode nd v).isSome) →
      ∃ sig, path_to_graph_signature g path nd = .ok sig ∧
        (path ≠ [] → sig.length + 1 = path.length) := by
  intro path
  induction path with
  | nil =>
    intro _ _
    exact ⟨[], rfl, by simp⟩
  | cons u rest ih =>
    intro hchain htail
    match rest with
    | [] => exact ⟨[], rfl, by simp⟩
    | v :: rest2 =>
      have hadj : g.adjU u v = true := (List.chain'_cons'.mp hchain).1 v rfl
      have hchain2 : List.Chain' (fun a b => g.adjU a b = true) (v :: rest2) :=
        (List.chain'_cons'.mp hchain).2
      have htail2 : ∀ w ∈ (v :: rest2).tail, (lookupNode nd w).isSome := by
        intro w hw
        refine htail w ?_
        simp only [List.tail_cons]
        exact List.mem_cons_of_mem v (by simpa using hw)
      obtain ⟨sig2, hsig2, hlen2⟩ := ih hchain2 htail2
      have hlen2e : sig2.length + 1 = rest2.length + 1 := by
        have := hlen2 (by simp)
        simpa using this
      have hvsome : (lookupNode nd v).isSome := htail v (by simp [List.tail])
      obtain ⟨d, hd⟩ := Option.isSome_iff_exists.mp hvsome
      rcases adjU_hop_test hg hadj with ht | ht | ht
      · refine ⟨(Action.parent, d.gender.getD "M") :: sig2, ?_, ?_⟩
        · simp only [path_to_graph_signature, hd, hsig2, Except.bind, bind]
          rw [if_pos (by simp [ht])]
        · intro _
          simp only [List.length_cons]
          omega
      · by_cases hfirst : g.rel v u == some "parent_of"
        · refine ⟨(Action.parent, d.gender.getD "M") :: sig2, ?_, ?_⟩
          · simp only [path_to_graph_signature, hd, hsig2, Except.bind, bind]
            rw [if_pos hfirst]
          · intro _
            simp only [List.length_cons]
            omega
        · refine ⟨(Action.child, d.gender.getD "M") :: sig2, ?_, ?_⟩
          · simp only [path_to_graph_signature, hd, hsig2, Except.bind, bind]
            rw [if_neg (by simpa using hfirst), if_pos (by simp [ht])]
          · intro _
            simp only [List.length_cons]
            omega
      · by_cases hfirst : g.rel v u == some "parent_of"
        · refine ⟨(Action.parent, d.gender.getD "M") :: sig2, ?_, ?_⟩
          · simp only [path_to_graph_signature, hd, hsig2, Except.bind, bind]
            rw [if_pos hfirst]
          · intro _
            simp only [List.length_cons]
            omega
        · by_cases hsecond : g.rel u v == some "parent_of"
          · refine ⟨(Action.child, d.gender.getD "M") :: sig2, ?_, ?_⟩
            · simp only [path_to_graph_signature, hd, hsig2, Except.bind, bind]
              rw [if_neg (by simpa using hfirst), if_pos hsecond]
            · intro _
              simp only [List.length_cons]
              omega
          · refine ⟨(Action.spouse, d.gender.getD "M") :: sig2, ?_, ?_⟩
            · simp only [path_to_graph_signature, hd, hsig2, Except.bind, bind]
              rw [if_neg (by simpa using hfirst), if_neg (by simpa using hsecond),
                if_pos (by simp [ht])]
            · intro _
              simp only [List.length_cons]
              omega

/-! ### Master unfolding of `infer_kinship` along a found path -/

theorem infer_kinship_eq_of_path (s t : String) (nodes : List PersonNode)
    (edges : List Edge) (data : KinshipData) (path : List String)
    (sig : List (Action × String))
    (hsp : shortest_path (build_graph nodes edges).1 s t = .ok (some path))
    (hsig : path_to_graph_signature (build_graph nodes edges).1 path
      (build_graph nodes edges).2 = .ok sig) :
    infer_kinship s t nodes edges data =
      (let g := (build_graph nodes edges).1
       let nd := (build_graph nodes edges).2
       let chain := signature_to_chain sig (lookupNode nd s) path nd
       let pd := path_desc_of chain
       let rt := if is_direct_lineage sig then ((0 : Nat), (0 : Nat))
                 else get_rank_among_siblings g nd t
       let variants := try_with_elder_younger chain (lookupNode nd s) (lookupNode nd t)
       match tierMatch data variants with
       | some (tier, v, r) =>
         .ok { title := apply_rank_to_title r.title rt.1 rt.2, aliases := r.aliases,
               chain := v, match_type := tier, path_desc := pd }
       | none => .ok (fallbackResult chain pd)) := by
  simp only [infer_kinship, has_path, find_path, hsp, hsig, Option.isSome]

/-! ### Shared helper about the tier labels -/

theorem tierMatch_tier {data : KinshipData} {variants : List (List Char)}
    {tier : String} {v : List Char} {r : RuleInfo}
    (h : tierMatch data variants = some (tier, v, r)) :
    tier = "primary" ∨ tier = "combined" ∨ tier = "branch" := by
  unfold tierMatch at h
  split at h
  · injection h with h2
    exact Or.inl (congrArg Prod.fst h2).symm
  · split at h
    · injection h with h2
      exact Or.inr (Or.inl (congrArg Prod.fst h2).symm)
    · split at h
      · injection h with h2
        exact Or.inr (Or.inr (congrArg Prod.fst h2).symm)
      · exact absurd h (by simp)

/-! ### Claim C9 -/

/-- C9: for every atom of the fixed glossary, the fallback formatter applied
to the single-atom chain yields exactly the glossary's Chinese noun as the
title, with empty aliases. -/
theorem C9_fallback_roundtrip :
    STEP_NAMES.all (fun q =>
      ((fallbackResult q.1 (path_desc_of q.1)).title == String.mk q.2) &&
      ((fallbackResult q.1 (path_desc_of q.1)).aliases == [])) = true := by
  decide

/-! ### Claim C2 -/

/-- C2: evaluation of spec scenario 1 (P at (0,0), me at (100,200), bro at
(0,200), all male, P parent of both; primary table maps `ob` to 哥哥).  The
code returns the chain `ob` but the *undecorated* title 哥哥, not 大哥: the
signature (Parent,M)(Child,M) is classified as direct lineage by
`_is_direct_lineage` (which accepts any mix of parent and child actions,
contradicting its own docstring that lists sibling chains such as `f,ob` as
non-lineal), so the rank decoration is skipped.  Had the rank been taken,
it would have been (1, 2) and the decorated title 大哥, as the spec says. -/
theorem C2_code_bug_eval :
    infer_kinship "me" "bro"
      [ ⟨"P", some "M", some ⟨some 0, some 0⟩⟩
      , ⟨"me", some "M", some ⟨some 100, some 200⟩⟩
      , ⟨"bro", some "M", some ⟨some 0, some 200⟩⟩ ]
      [ ⟨"P", "me", "parent_of"⟩, ⟨"P", "bro", "parent_of"⟩ ]
      ⟨[(['o','b'], ⟨"哥哥", ["哥"], ['o','b']⟩)], [], []⟩ =
      .ok ⟨"哥哥", ["哥"], ['o','b'], "primary", "兄".toList⟩ ∧
    get_rank_among_siblings
      (build_graph
        [ ⟨"P", some "M", some ⟨some 0, some 0⟩⟩
        , ⟨"me", some "M", some ⟨some 100, some 200⟩⟩
        , ⟨"bro", some "M", some ⟨some 0, some 200⟩⟩ ]
        [ ⟨"P", "me", "parent_of"⟩, ⟨"P", "bro", "parent_of"⟩ ]).1
      (build_graph
        [ ⟨"P", some "M", some ⟨some 0, some 0⟩⟩
        , ⟨"me", some "M", some ⟨some 100, some 200⟩⟩
        , ⟨"bro", some "M", some ⟨some 0, some 200⟩⟩ ]
        [ ⟨"P", "me", "parent_of"⟩, ⟨"P", "bro", "parent_of"⟩ ]).2 "bro" = (1, 2) ∧
    apply_rank_to_title "哥哥" 1 2 = "大哥" ∧
    is_direct_lineage [(Action.parent, "M"), (Action.child, "M")] = true := by
  exact ⟨rfl, rfl, rfl, rfl⟩

/-! ### Claim C1 -/

/-- C1 counterexample: the matcher iterates *tiers* outermost, not variants.
With no positions the canonical chain is `xb`; its variant list is
`[xb, s&o, s, s&l, ob, lb]`.  The earlier variant `xb` matches only a
combined rule while the later variant `ob` matches a primary rule, and the
result is the primary match on `ob` with match_type "primary" — not, as the
claim states, the combined match on `xb` with match_type "combined". -/
theorem C1_counterexample :
    infer_kinship "me" "bro"
      [ ⟨"P", some "M", none⟩, ⟨"me", some "M", none⟩, ⟨"bro", some "M", none⟩ ]
      [ ⟨"P", "me", "parent_of"⟩, ⟨"P", "bro", "parent_of"⟩ ]
      ⟨[(['o','b'], ⟨"哥哥", [], ['o','b']⟩)], [⟨"兄弟", [], ['x','b']⟩], []⟩ =
      .ok ⟨"哥哥", [], ['o','b'], "primary", "兄弟".toList⟩ ∧
    try_with_elder_younger ['x','b'] none none =
      [ ['x','b'], ['s','&','o'], ['s'], ['s','&','l'], ['o','b'], ['l','b'] ] ∧
    KinshipData.lookup_primary
      ⟨[(['o','b'], ⟨"哥哥", [], ['o','b']⟩)], [⟨"兄弟", [], ['x','b']⟩], []⟩
      ['x','b'] = none ∧
    KinshipData.lookup_combined
      ⟨[(['o','b'], ⟨"哥哥", [], ['o','b']⟩)], [⟨"兄弟", [], ['x','b']⟩], []⟩
      ['x','b'] = some ⟨"兄弟", [], ['x','b']⟩ ∧
    KinshipData.lookup_primary
      ⟨[(['o','b'], ⟨"哥哥", [], ['o','b']⟩)], [⟨"兄弟", [], ['x','b']⟩], []⟩
      ['o','b'] = some ⟨"哥哥", [], ['o','b']⟩ := by
  exact ⟨rfl, rfl, rfl, rfl, rfl⟩

/-- C1 (amended): the matcher iterates tiers outermost — all variants are
tried against the primary table first, then against the combined rules,
then the branch rules.  Consequently, whenever any variant matches a
primary rule, the result is the first such variant's primary match with
match_type "primary", even if an earlier variant matches a combined rule. -/
theorem C1_amended (s t : String) (nodes : List PersonNode) (edges : List Edge)
    (data : KinshipData) (path : List String) (sig : List (Action × String))
    (v : List Char) (r : RuleInfo)
    (hsp : shortest_path (build_graph nodes edges).1 s t = .ok (some path))
    (hsig : path_to_graph_signature (build_graph nodes edges).1 path
      (build_graph nodes edges).2 = .ok sig)
    (hprim : findVariantMatch
      (try_with_elder_younger
        (signature_to_chain sig (lookupNode (build_graph nodes edges).2 s) path
          (build_graph nodes edges).2)
        (lookupNode (build_graph nodes edges).2 s)
        (lookupNode (build_graph nodes edges).2 t))
      data.lookup_primary = some (v, r)) :
    ∃ res, infer_kinship s t nodes edges data = .ok res ∧
      res.match_type = "primary" ∧ res.chain = v := by
  rw [infer_kinship_eq_of_path s t nodes edges data path sig hsp hsig]
  simp only [tierMatch, hprim]
  exact ⟨_, rfl, rfl, rfl⟩

theorem C1_witness :
    ∃ res, infer_kinship "me" "bro"
      [ ⟨"P", some "M", none⟩, ⟨"me", some "M", none⟩, ⟨"bro", some "M", none⟩ ]
      [ ⟨"P", "me", "parent_of"⟩, ⟨"P", "bro", "parent_of"⟩ ]
      ⟨[(['o','b'], ⟨"哥哥", [], ['o','b']⟩)], [⟨"兄弟", [], ['x','b']⟩], []⟩ = .ok res ∧
      res.match_type = "primary" ∧ res.chain = ['o','b'] :=
  C1_amended "me" "bro"
    [ ⟨"P", some "M", none⟩, ⟨"me", some "M", none⟩, ⟨"bro", some "M", none⟩ ]
    [ ⟨"P", "me", "parent_of"⟩, ⟨"P", "bro", "parent_of"⟩ ]
    ⟨[(['o','b'], ⟨"哥哥", [], ['o','b']⟩)], [⟨"兄弟", [], ['x','b']⟩], []⟩
    ["me", "P", "bro"] [(Action.parent, "M"), (Action.child, "M")]
    ['o','b'] ⟨"哥哥", [], ['o','b']⟩ rfl rfl rfl

/-! ### Claim C3 -/

/-- C3 counterexample: a hop satisfying none of the three relation tests is
silently *skipped* by `_path_to_graph_signature` (the signature simply
omits it) — the extractor does not abort, and no "error" outcome is
produced.  Here the graph has no edges at all, so the hop ("a", "b") of
the given path matches no test, yet extraction succeeds with an empty
signature. -/
theorem C3_counterexample :
    path_to_graph_signature ⟨[], []⟩ ["a", "b"] [("b", ⟨"b", some "M", none⟩)] = .ok [] ∧
    Graph.rel ⟨[], []⟩ "b" "a" ≠ some "parent_of" ∧
    Graph.rel ⟨[], []⟩ "a" "b" ≠ some "parent_of" ∧
    Graph.rel ⟨[], []⟩ "a" "b" ≠ some "spouse_of" := by
  refine ⟨rfl, ?_, ?_, ?_⟩ <;> simp [Graph.rel]

/-- C3 (amended): on graphs produced by the builder, every
undirected-adjacent hop satisfies one of the three relation tests (spouse
edges are stored in both directions and relations are only `parent_of` or
`spouse_of`), so along any adjacency-chained path whose non-head nodes
have node records, signature extraction never skips a hop, never aborts,
and yields exactly one signature entry per hop; the "error" outcome is
unreachable.  (If a path node lacks a record, the code raises `KeyError`
rather than returning the "error" outcome — see C4.) -/
theorem C3_amended (nodes : List PersonNode) (edges : List Edge) (path : List String)
    (hchain : List.Chain' (fun a b => (build_graph nodes edges).1.adjU a b = true) path)
    (htail : ∀ v ∈ path.tail, (lookupNode (build_graph nodes edges).2 v).isSome) :
    (∀ u v, (build_graph nodes edges).1.adjU u v = true →
       ((build_graph nodes edges).1.rel v u = some "parent_of" ∨
        (build_graph nodes edges).1.rel u v = some "parent_of" ∨
        (build_graph nodes edges).1.rel u v = some "spouse_of")) ∧
    ∃ sig, path_to_graph_signature (build_graph nodes edges).1 path
        (build_graph nodes edges).2 = .ok sig ∧
      (path ≠ [] → sig.length + 1 = path.length) := by
  have hg := relInv_build nodes edges
  exact ⟨fun u v h => adjU_hop_test hg h, path_sig_ok hg _ path hchain htail⟩

theorem C3_witness :
    ∃ sig, path_to_graph_signature
        (build_graph
          [ ⟨"P", some "M", none⟩, ⟨"me", some "M", none⟩, ⟨"bro", some "M", none⟩ ]
          [ ⟨"P", "me", "parent_of"⟩, ⟨"P", "bro", "parent_of"⟩ ]).1
        ["me", "P", "bro"]
        (build_graph
          [ ⟨"P", some "M", none⟩, ⟨"me", some "M", none⟩, ⟨"bro", some "M", none⟩ ]
          [ ⟨"P", "me", "parent_of"⟩, ⟨"P", "bro", "parent_of"⟩ ]).2 = .ok sig ∧
      (["me", "P", "bro"] ≠ ([] : List String) → sig.length + 1 = 3) :=
  (C3_amended
    [ ⟨"P", some "M", none⟩, ⟨"me", some "M", none⟩, ⟨"bro", some "M", none⟩ ]
    [ ⟨"P", "me", "parent_of"⟩, ⟨"P", "bro", "parent_of"⟩ ]
    ["me", "P", "bro"]
    (List.chain'_cons.mpr ⟨rfl, List.chain'_cons.mpr ⟨rfl, List.chain'_singleton "bro"⟩⟩)
    (by decide)).2

/-! ### Claim C4 -/

/-- C4 counterexample: `infer_kinship` can raise.  A dangling edge makes
"ghost" a graph node without a node record; the path reaches it and
`node_data[v]` raises `KeyError`.  With no nodes or edges at all, the
`nx.has_path` call raises `NodeNotFound` for the missing source. -/
theorem C4_counterexample :
    infer_kinship "me" "ghost" [⟨"me", some "M", none⟩]
      [⟨"me", "ghost", "parent_of"⟩] ⟨[], [], []⟩ = .error .keyError ∧
    infer_kinship "me" "ghost" [⟨"me", some "M", none⟩] [] ⟨[], [], []⟩ =
      .error .nodeNotFound := by
  exact ⟨rfl, rfl⟩

/-- C4 (amended): when the source and target are nodes of the built graph
and every endpoint of every recognized edge appears in the node list,
`infer_kinship` raises no exception and returns a result tagged with one
of the closed set of outcome tags. -/
theorem C4_amended (s t : String) (nodes : List PersonNode) (edges : List Edge)
    (data : KinshipData)
    (hs : s ∈ (build_graph nodes edges).1.verts)
    (ht : t ∈ (build_graph nodes edges).1.verts)
    (hend : ∀ e ∈ edges, (e.label = "parent_of" ∨ e.label = "spouse_of") →
      e.source ∈ nodes.map (fun n => n.id) ∧ e.target ∈ nodes.map (fun n => n.id)) :
    ∃ res, infer_kinship s t nodes edges data = .ok res ∧
      (res.match_type = "primary" ∨ res.match_type = "combined" ∨
       res.match_type = "branch" ∨ res.match_type = "fallback" ∨
       res.match_type = "none" ∨ res.match_type = "error") := by
  have hsp : shortest_path (build_graph nodes edges).1 s t =
      .ok (bfs (build_graph nodes edges).1 s t) := by
    unfold shortest_path
    rw [if_pos ⟨hs, ht⟩]
  cases hbfs : bfs (build_graph nodes edges).1 s t with
  | none =>
    refine ⟨{ title := "没有亲戚关系", aliases := [], chain := [],
              match_type := "none", path_desc := "两人之间没有路径连接".toList }, ?_, ?_⟩
    · simp only [infer_kinship, has_path, hsp, hbfs, Option.isSome]
    · simp
  | some path =>
    obtain ⟨hne, hh, hl, hchain, hmem⟩ := bfs_sound hs hbfs
    have htail : ∀ v ∈ path.tail, (lookupNode (build_graph nodes edges).2 v).isSome := by
      intro v hv
      have hvm : v ∈ path := List.tail_subset path hv
      have hvid : v ∈ nodes.map (fun n => n.id) :=
        verts_build_subset hend v (hmem v hvm)
      have hnd : (build_graph nodes edges).2 = nodes.map (fun n => (n.id, n)) := rfl
      rw [hnd]
      exact lookupNode_isSome_of_mem hvid
    obtain ⟨sig, hsig, _⟩ := path_sig_ok (relInv_build nodes edges)
      (build_graph nodes edges).2 path hchain htail
    rw [infer_kinship_eq_of_path s t nodes edges data path sig
      (hsp.trans (by rw [hbfs])) hsig]
    simp only []
    cases htm : tierMatch data (try_with_elder_younger
        (signature_to_chain sig (lookupNode (build_graph nodes edges).2 s) path
          (build_graph nodes edges).2)
        (lookupNode (build_graph nodes edges).2 s)
        (lookupNode (build_graph nodes edges).2 t)) with
    | none =>
      exact ⟨_, rfl, Or.inr (Or.inr (Or.inr (Or.inl rfl)))⟩
    | some q =>
      obtain ⟨tier, v, r⟩ := q
      rcases tierMatch_tier htm with h | h | h
      · exact ⟨_, rfl, Or.inl h⟩
      · exact ⟨_, rfl, Or.inr (Or.inl h)⟩
      · exact ⟨_, rfl, Or.inr (Or.inr (Or.inl h))⟩

theorem C4_witness :
    ∃ res, infer_kinship "me" "bro"
      [ ⟨"P", some "M", none⟩, ⟨"me", some "M", none⟩, ⟨"bro", some "M", none⟩ ]
      [ ⟨"P", "me", "parent_of"⟩, ⟨"P", "bro", "parent_of"⟩ ] ⟨[], [], []⟩ = .ok res ∧
      (res.match_type = "primary" ∨ res.match_type = "combined" ∨
       res.match_type = "branch" ∨ res.match_type = "fallback" ∨
       res.match_type = "none" ∨ res.match_type = "error") :=
  C4_amended "me" "bro"
    [ ⟨"P", some "M", none⟩, ⟨"me", some "M", none⟩, ⟨"bro", some "M", none⟩ ]
    [ ⟨"P", "me", "parent_of"⟩, ⟨"P", "bro", "parent_of"⟩ ] ⟨[], [], []⟩
    (by decide) (by decide) (by decide)

/-! ### Claim C7 -/

/-- C7: if the extracted signature is purely Parent actions or purely Child
actions, the rank decoration is skipped entirely: whatever rule tier
matches, the returned title is exactly the matched rule's title. -/
theorem C7_lineal_purity (s t : String) (nodes : List PersonNode) (edges : List Edge)
    (data : KinshipData) (path : List String) (sig : List (Action × String))
    (tier : String) (v : List Char) (rule : RuleInfo)
    (hsp : shortest_path (build_graph nodes edges).1 s t = .ok (some path))
    (hsig : path_to_graph_signature (build_graph nodes edges).1 path
      (build_graph nodes edges).2 = .ok sig)
    (hpure : (∀ st ∈ sig, st.1 = Action.parent) ∨ (∀ st ∈ sig, st.1 = Action.child))
    (hm : tierMatch data
      (try_with_elder_younger
        (signature_to_chain sig (lookupNode (build_graph nodes edges).2 s) path
          (build_graph nodes edges).2)
        (lookupNode (build_graph nodes edges).2 s)
        (lookupNode (build_graph nodes edges).2 t)) = some (tier, v, rule)) :
    ∃ res, infer_kinship s t nodes edges data = .ok res ∧ res.title = rule.title := by
  have hdl : is_direct_lineage sig = true := by
    unfold is_direct_lineage
    rw [List.all_eq_true]
    intro st hst
    rcases hpure with h | h
    · simp [h st hst]
    · simp [h st hst]
  rw [infer_kinship_eq_of_path s t nodes edges data path sig hsp hsig]
  simp only [hdl, if_true, hm]
  refine ⟨_, rfl, ?_⟩
  simp [apply_rank_to_title]

theorem C7_witness :
    ∃ res, infer_kinship "me" "GF"
      [ ⟨"GF", some "M", none⟩, ⟨"F", some "M", none⟩, ⟨"me", some "M", none⟩ ]
      [ ⟨"GF", "F", "parent_of"⟩, ⟨"F", "me", "parent_of"⟩ ]
      ⟨[(['f',',','f'], ⟨"爷爷", [], ['f',',','f']⟩)], [], []⟩ = .ok res ∧
      res.title = "爷爷" :=
  C7_lineal_purity "me" "GF"
    [ ⟨"GF", some "M", none⟩, ⟨"F", some "M", none⟩, ⟨"me", some "M", none⟩ ]
    [ ⟨"GF", "F", "parent_of"⟩, ⟨"F", "me", "parent_of"⟩ ]
    ⟨[(['f',',','f'], ⟨"爷爷", [], ['f',',','f']⟩)], [], []⟩
    ["me", "F", "GF"] [(Action.parent, "M"), (Action.parent, "M")]
    "primary" ['f',',','f'] ⟨"爷爷", [], ['f',',','f']⟩
    rfl rfl (Or.inl (by decide)) rfl

/-! ### Claim C8: variant-list machinery -/

theorem guardAppend_nodup {acc : List (List Char)} {x : List Char}
    (h : acc.Nodup) : (if x ∈ acc then acc else acc ++ [x]).Nodup := by
  split
  · exact h
  · rename_i hx
    refine List.nodup_append.mpr ⟨h, List.nodup_singleton x, ?_⟩
    intro y hy hymem
    rw [List.mem_singleton] at hymem
    subst hymem
    exact hx hy

theorem foldl_nodup_preserve {α : Type} {step : List α → α → List α}
    (hstep : ∀ acc x, acc.Nodup → (step acc x).Nodup) :
    ∀ (base : List α) (acc : List α), acc.Nodup → (base.foldl step acc).Nodup := by
  intro base
  induction base with
  | nil => intro acc h; exact h
  | cons x rest ih =>
    intro acc h
    rw [List.foldl_cons]
    exact ih _ (hstep acc x h)

theorem cons_erase_nodup {A : List (List Char)} (chain : List Char) (h : A.Nodup) :
    (chain :: (if chain ∈ A then A.erase chain else A)).Nodup := by
  split
  · exact List.nodup_cons.mpr ⟨List.Nodup.not_mem_erase h, h.erase chain⟩
  · rename_i hc
    exact List.nodup_cons.mpr ⟨hc, h⟩

theorem tryStep_nodup (acc : List (List Char)) (v : List Char) (h : acc.Nodup) :
    (if endsAmp ((splitComma v).getLastD []) then
       (if joinComma ((splitComma v).dropLast ++ [stripAmp ((splitComma v).getLastD [])]) ∈
           (if v ∈ acc then acc else acc ++ [v]) then
          (if v ∈ acc then acc else acc ++ [v])
        else (if v ∈ acc then acc else acc ++ [v]) ++
          [joinComma ((splitComma v).dropLast ++ [stripAmp ((splitComma v).getLastD [])])])
     else (if v ∈ acc then acc else acc ++ [v])).Nodup := by
  split
  · exact guardAppend_nodup (guardAppend_nodup h)
  · exact guardAppend_nodup h

theorem tryWE_head (chain : List Char) (sN tN : Option PersonNode) :
    (try_with_elder_younger chain sN tN).head? = some chain := by
  simp only [try_with_elder_younger]
  split
  · rfl
  · rfl

theorem tryWE_nodup (chain : List Char) (sN tN : Option PersonNode) :
    (try_with_elder_younger chain sN tN).Nodup := by
  simp only [try_with_elder_younger]
  split
  · exact List.nodup_singleton chain
  · exact cons_erase_nodup chain
      (foldl_nodup_preserve tryStep_nodup _ [] List.nodup_nil)

/-- C8: for every canonical chain the variant list has the canonical chain
at index 0 and no duplicates; and the result's chain field is the matching
variant (with its tier) when a tier matched, and the canonical chain with
match_type "fallback" otherwise. -/
theorem C8_variant_canonicity (s t : String) (nodes : List PersonNode) (edges : List Edge)
    (data : KinshipData) (path : List String) (sig : List (Action × String))
    (hsp : shortest_path (build_graph nodes edges).1 s t = .ok (some path))
    (hsig : path_to_graph_signature (build_graph nodes edges).1 path
      (build_graph nodes edges).2 = .ok sig) :
    (∀ (c : List Char) (sN tN : Option PersonNode),
      (try_with_elder_younger c sN tN).head? = some c ∧
      (try_with_elder_younger c sN tN).Nodup) ∧
    ∃ res, infer_kinship s t nodes edges data = .ok res ∧
      (match tierMatch data (try_with_elder_younger
          (signature_to_chain sig (lookupNode (build_graph nodes edges).2 s) path
            (build_graph nodes edges).2)
          (lookupNode (build_graph nodes edges).2 s)
          (lookupNode (build_graph nodes edges).2 t)) with
       | some (tier, v, _) => res.chain = v ∧ res.match_type = tier
       | none =>
         res.chain = signature_to_chain sig (lookupNode (build_graph nodes edges).2 s)
           path (build_graph nodes edges).2 ∧ res.match_type = "fallback") := by
  refine ⟨fun c sN tN => ⟨tryWE_head c sN tN, tryWE_nodup c sN tN⟩, ?_⟩
  rw [infer_kinship_eq_of_path s t nodes edges data path sig hsp hsig]
  cases htm : tierMatch data (try_with_elder_younger
      (signature_to_chain sig (lookupNode (build_graph nodes edges).2 s) path
        (build_graph nodes edges).2)
      (lookupNode (build_graph nodes edges).2 s)
      (lookupNode (build_graph nodes edges).2 t)) with
  | none =>
    simp only [htm]
    exact ⟨_, rfl, rfl, rfl⟩
  | some q =>
    obtain ⟨tier, v, r⟩ := q
    simp only [htm]
    exact ⟨_, rfl, rfl, rfl⟩

theorem C8_witness :
    (try_with_elder_younger ['x','b'] none none).head? = some ['x','b'] ∧
    (try_with_elder_younger ['x','b'] none none).Nodup ∧
    ∃ res, infer_kinship "me" "bro"
      [ ⟨"P", some "M", none⟩, ⟨"me", some "M", none⟩, ⟨"bro", some "M", none⟩ ]
      [ ⟨"P", "me", "parent_of"⟩, ⟨"P", "bro", "parent_of"⟩ ]
      ⟨[(['o','b'], ⟨"哥哥", [], ['o','b']⟩)], [⟨"兄弟", [], ['x','b']⟩], []⟩ = .ok res ∧
      res.chain = ['o','b'] ∧ res.match_type = "primary" := by
  have h := C8_variant_canonicity "me" "bro"
    [ ⟨"P", some "M", none⟩, ⟨"me", some "M", none⟩, ⟨"bro", some "M", none⟩ ]
    [ ⟨"P", "me", "parent_of"⟩, ⟨"P", "bro", "parent_of"⟩ ]
    ⟨[(['o','b'], ⟨"哥哥", [], ['o','b']⟩)], [⟨"兄弟", [], ['x','b']⟩], []⟩
    ["me", "P", "bro"] [(Action.parent, "M"), (Action.child, "M")] rfl rfl
  obtain ⟨res, hres, hmatch⟩ := h.2
  have hm2 : res.chain = ['o','b'] ∧ res.match_type = "primary" := hmatch
  exact ⟨(h.1 ['x','b'] none none).1, (h.1 ['x','b'] none none).2, res, hres, hm2.1, hm2.2⟩

/-! ### Claim C5: encoder collapsing -/

theorem chainLoop_pos (sigLen : Nat) (path : List String)
    (nd : List (String × PersonNode)) :
    ∀ (sig : List (Action × String)) (i : Nat), i ≠ 0 →
      chainLoop sigLen path nd i sig = collapseList sig := by
  intro sig
  induction sig using collapseList.induct with
  | case1 =>
    intro i hi
    rfl
  | case2 g1 nextg rest2 ih =>
    intro i hi
    rw [chainLoop, collapseList]
    rw [if_neg (by omega)]
    rw [ih (i + 2) (by omega)]
  | case3 a gen rest h1 c hc ih =>
    intro i hi
    rw [chainLoop, collapseList]
    · simp only [hc]
      rw [ih (i + 1) (by omega)]
    · exact h1
    · exact h1
  | case4 a gen rest h1 hc ih =>
    intro i hi
    rw [chainLoop, collapseList]
    · simp only [hc]
      exact ih (i + 1) (by omega)
    · exact h1
    · exact h1

theorem chainLoop_zero (path : List String) (nd : List (String × PersonNode))
    (sig : List (Action × String))
    (hshape : ∀ g1 g2 : String, sig ≠ [(Action.parent, g1), (Action.child, g2)]) :
    chainLoop sig.length path nd 0 sig = collapseList sig := by
  rcases sig with _ | ⟨⟨a, gen⟩, _ | ⟨⟨b, gb⟩, rest⟩⟩
  · rfl
  · rw [chainLoop, collapseList]
    · cases hc : actionCode a gen
      · simp only []
        rfl
      · simp only []
        rfl
    · intro nextg rest2 ha heq
      exact absurd heq (by simp)
    · intro nextg rest2 ha heq
      exact absurd heq (by simp)
  · by_cases hpair : a = Action.parent ∧ b = Action.child
    · obtain ⟨rfl, rfl⟩ := hpair
      match rest with
      | [] => exact absurd rfl (hshape gen gb)
      | r :: rest2 =>
        rw [chainLoop, collapseList]
        rw [if_neg (by simp only [List.length_cons]; omega)]
        rw [chainLoop_pos _ path nd _ 2 (by omega)]
    · rw [chainLoop, collapseList]
      · cases hc : actionCode a gen
        · simp only [hc]
          rw [chainLoop_pos _ path nd _ 1 (by omega)]
        · simp only [hc]
          rw [chainLoop_pos _ path nd _ 1 (by omega)]
      · intro nextg rest2 ha heq
        injection heq with h2 h3
        injection h2 with h4 h5
        exact hpair ⟨ha, h4⟩
      · intro nextg rest2 ha heq
        injection heq with h2 h3
        injection h2 with h4 h5
        exact hpair ⟨ha, h4⟩

theorem collapseList_append_pair (a g : String) (post : List (Action × String)) :
    ∀ pre : List (Action × String),
      collapseList (pre ++ (Action.parent, a) :: (Action.child, g) :: post) =
        collapseList pre ++ (if g == "M" then ['x','b'] else ['x','s']) :: collapseList post := by
  intro pre
  induction pre using collapseList.induct with
  | case1 =>
    simp only [List.nil_append]
    rw [collapseList]
    rw [collapseList]
    rfl
  | case2 g1 nextg rest2 ih =>
    simp only [List.cons_append]
    rw [collapseList, collapseList]
    rw [ih]
    simp [List.cons_append]
  | case3 a0 gen rest h1 c hc ih =>
    simp only [List.cons_append]
    rw [collapseList, collapseList]
    · simp only [hc]
      rw [ih]
      simp [List.cons_append]
    · exact h1
    · intro nextg rest2 ha heq
      cases rest with
      | nil =>
        rw [List.nil_append] at heq
        injection heq with h2 h3
        injection h2 with h4 h5
        exact Action.noConfusion h4
      | cons x rest3 =>
        rw [List.cons_append] at heq
        injection heq with h2 h3
        exact h1 nextg rest3 ha (by rw [h2])
  | case4 a0 gen rest h1 hc ih =>
    simp only [List.cons_append]
    rw [collapseList, collapseList]
    · simp only [hc]
      rw [ih]
    · exact h1
    · intro nextg rest2 ha heq
      cases rest with
      | nil =>
        rw [List.nil_append] at heq
        injection heq with h2 h3
        injection h2 with h4 h5
        exact Action.noConfusion h4
      | cons x rest3 =>
        rw [List.cons_append] at heq
        injection heq with h2 h3
        exact h1 nextg rest3 ha (by rw [h2])

/-- C5: a (Parent,.)(Child,g) pair is encoded as a *direct* sibling exactly
when the two steps are the whole signature (pair at index 0, length 2): the
atom is then chosen from the x positions of `path[0]` and `path[2]` —
elder/younger form only when both are known and differ, with the elder
form 'o' exactly when the target x is smaller.  In every other position
the pair collapses to the unknown-order atom xb/xs, independently of any
coordinates: the whole scan then equals the coordinate-free
`collapseList`. -/
theorem C5_sibling_encoding :
    (∀ (g1 g : String) (path : List String) (nd : List (String × PersonNode)),
      chainLoop 2 path nd 0 [(Action.parent, g1), (Action.child, g)] =
        [ match xOf nd (path.get? 0), xOf nd (path.get? 2) with
          | some fromx, some tox =>
            if fromx ≠ tox then
              if g = "M" then (if tox < fromx then ['o','b'] else ['l','b'])
              else (if tox < fromx then ['o','s'] else ['l','s'])
            else (if g = "M" then ['x','b'] else ['x','s'])
          | _, _ => (if g = "M" then ['x','b'] else ['x','s']) ]) ∧
    (∀ (pre : List (Action × String)) (a g : String) (post : List (Action × String))
       (path : List String) (nd : List (String × PersonNode)),
      pre ≠ [] ∨ post ≠ [] →
      chainLoop (pre ++ (Action.parent, a) :: (Action.child, g) :: post).length path nd 0
          (pre ++ (Action.parent, a) :: (Action.child, g) :: post) =
        collapseList pre ++ (if g == "M" then ['x','b'] else ['x','s']) :: collapseList post) := by
  constructor
  · intro g1 g path nd
    rw [chainLoop]
    rw [if_pos ⟨rfl, rfl⟩]
    have hnil : chainLoop 2 path nd 2 [] = [] := rfl
    rw [hnil]
    unfold directSiblingAtom
    cases hx : xOf nd (path.get? 0) <;> cases hy : xOf nd (path.get? 2)
    · simp [beq_iff_eq]
    · simp [beq_iff_eq]
    · simp [beq_iff_eq]
    · rename_i fx tx
      by_cases hne : fx = tx <;> by_cases hg : g = "M" <;>
        simp [hne, hg, beq_iff_eq]
  · intro pre a g post path nd hne
    rw [chainLoop_zero path nd _ ?hshape]
    case hshape =>
      intro g1 g2 heq
      have hlen := congrArg List.length heq
      simp only [List.length_append, List.length_cons, List.length_nil] at hlen
      rcases hne with h | h
      · have : 1 ≤ pre.length := by
          cases pre with
          | nil => exact absurd rfl h
          | cons _ _ => simp
        omega
      · have : 1 ≤ post.length := by
          cases post with
          | nil => exact absurd rfl h
          | cons _ _ => simp
        omega
    exact collapseList_append_pair a g post pre

theorem C5_witness :
    chainLoop 2 ["me", "P", "bro"]
        [("me", ⟨"me", some "M", some ⟨some 100, some 200⟩⟩),
         ("bro", ⟨"bro", some "M", some ⟨some 0, some 200⟩⟩)] 0
        [(Action.parent, "M"), (Action.child, "M")] = [['o','b']] ∧
    chainLoop 3 [] [] 0
        [(Action.parent, "M"), (Action.parent, "M"), (Action.child, "M")] =
      [['f'], ['x','b']] := by
  constructor
  · exact (C5_sibling_encoding.1 "M" "M" ["me", "P", "bro"]
      [("me", ⟨"me", some "M", some ⟨some 100, some 200⟩⟩),
       ("bro", ⟨"bro", some "M", some ⟨some 0, some 200⟩⟩)]).trans rfl
  · exact (C5_sibling_encoding.2 [(Action.parent, "M")] "M" "M" [] [] [] (Or.inl (by simp))).trans rfl

/-! ### Claim C6: chain alphabet machinery -/

theorem splitOnChar_no_sep {sep : Char} :
    ∀ p : List Char, sep ∉ p → splitOnChar sep p = [p] := by
  intro p
  induction p with
  | nil => intro _; rfl
  | cons c rest ih =>
    intro h
    rw [splitOnChar]
    rw [if_neg (fun hc => h (by rw [← hc]; exact List.mem_cons_self c rest))]
    rw [ih (fun hr => h (List.mem_cons_of_mem c hr))]

theorem splitOnChar_append_sep {sep : Char} (l : List Char) :
    ∀ p : List Char, sep ∉ p →
      splitOnChar sep (p ++ sep :: l) = p :: splitOnChar sep l := by
  intro p
  induction p with
  | nil =>
    intro _
    rw [List.nil_append, splitOnChar, if_pos rfl]
  | cons c rest ih =>
    intro h
    rw [List.cons_append, splitOnChar]
    rw [if_neg (fun hc => h (by rw [← hc]; exact List.mem_cons_self c rest))]
    rw [ih (fun hr => h (List.mem_cons_of_mem c hr))]

theorem splitComma_joinComma :
    ∀ ps : List (List Char), ps ≠ [] → (∀ p ∈ ps, ',' ∉ p) →
      splitComma (joinComma ps) = ps := by
  intro ps
  induction ps with
  | nil => intro h _; exact absurd rfl h
  | cons p rest ih =>
    intro _ hc
    match rest with
    | [] =>
      rw [joinComma]
      exact splitOnChar_no_sep p (hc p (by simp))
    | q :: rest2 =>
      rw [joinComma]
      · rw [splitComma]
        rw [splitOnChar_append_sep _ p (hc p (by simp))]
        have := ih (by simp) (fun x hx => hc x (List.mem_cons_of_mem p hx))
        rw [splitComma] at this
        rw [this]
      · simp

theorem joinComma_ne_nil :
    ∀ ps : List (List Char), ps ≠ [] → (∀ p ∈ ps, p ≠ []) → joinComma ps ≠ [] := by
  intro ps
  match ps with
  | [] => intro h _; exact absurd rfl h
  | [p] =>
    intro _ hp
    rw [joinComma]
    exact hp p (by simp)
  | p :: q :: rest =>
    intro _ hp h2
    rw [joinComma] at h2
    · rcases List.append_eq_nil.mp h2 with ⟨h3, _⟩
      exact hp p (by simp) h3
    · simp

theorem alphabet_no_comma : ∀ p ∈ CHAIN_ALPHABET, ',' ∉ p := by decide

theorem alphabet_ne_nil : ∀ p ∈ CHAIN_ALPHABET, p ≠ [] := by decide

theorem alphabet_stripAmp : ∀ p ∈ CHAIN_ALPHABET, stripAmp p ∈ CHAIN_ALPHABET := by decide

theorem variantsMap_sub : ∀ q ∈ VARIANTS_MAP, ∀ x ∈ q.2, x ∈ CHAIN_ALPHABET := by decide

theorem directSiblingAtom_mem (g : String) (fx tx : Option Int) :
    directSiblingAtom g fx tx ∈ CHAIN_ALPHABET := by
  have hxb : (if g == "M" then ['x','b'] else ['x','s']) ∈ CHAIN_ALPHABET := by
    split <;> decide
  unfold directSiblingAtom
  cases fx with
  | none => cases tx <;> exact hxb
  | some a =>
    cases tx with
    | none => exact hxb
    | some b =>
      show (if a ≠ b then
              (if g == "M" then (if b < a then ['o','b'] else ['l','b'])
               else (if b < a then ['o','s'] else ['l','s']))
            else (if g == "M" then ['x','b'] else ['x','s'])) ∈ CHAIN_ALPHABET
      split_ifs <;> decide

theorem actionCode_mem {a : Action} {gen : String} {c : List Char}
    (h : actionCode a gen = some c) : c ∈ CHAIN_ALPHABET := by
  unfold actionCode at h
  split at h <;>
    first
    | (injection h with h2; rw [← h2]; decide)
    | exact absurd h (by simp)

theorem chainLoop_mem_alphabet (sigLen : Nat) (path : List String)
    (nd : List (String × PersonNode)) :
    ∀ (sig : List (Action × String)) (i : Nat),
      ∀ p ∈ chainLoop sigLen path nd i sig, p ∈ CHAIN_ALPHABET := by
  intro sig
  induction sig using collapseList.induct with
  | case1 =>
    intro i p hp
    exact absurd hp (by simp [chainLoop])
  | case2 g1 nextg rest2 ih =>
    intro i p hp
    rw [chainLoop] at hp
    rcases List.mem_cons.mp hp with rfl | hp2
    · split
      · exact directSiblingAtom_mem nextg _ _
      · split <;> decide
    · exact ih (i + 2) p hp2
  | case3 a gen rest h1 c hc ih =>
    intro i p hp
    rw [chainLoop] at hp
    · simp only [hc] at hp
      rcases List.mem_cons.mp hp with rfl | hp2
      · exact actionCode_mem hc
      · exact ih (i + 1) p hp2
    · exact h1
  | case4 a gen rest h1 hc ih =>
    intro i p hp
    rw [chainLoop] at hp
    · simp only [hc] at hp
      exact ih (i + 1) p hp
    · exact h1

theorem actionCode_total {a : Action} {gen : String} (h : gen = "M" ∨ gen = "F") :
    (actionCode a gen).isSome := by
  rcases h with rfl | rfl <;> cases a <;> rfl

theorem collapseList_ne_nil :
    ∀ sig : List (Action × String),
      (∀ st ∈ sig, st.2 = "M" ∨ st.2 = "F") → sig ≠ [] → collapseList sig ≠ [] := by
  intro sig
  induction sig using collapseList.induct with
  | case1 => intro _ h; exact absurd rfl h
  | case2 g1 nextg rest2 ih =>
    intro _ _
    rw [collapseList]
    simp
  | case3 a gen rest h1 c hc ih =>
    intro hwf _
    rw [collapseList]
    · simp only [hc]
      simp
    · exact h1
  | case4 a gen rest h1 hc ih =>
    intro hwf _
    have hs := actionCode_total (a := a) (hwf (a, gen) (by simp))
    rw [show actionCode a (a, gen).2 = actionCode a gen from rfl, hc] at hs
    exact absurd hs (by simp)

theorem chainLoop_zero_ne_nil (path : List String) (nd : List (String × PersonNode))
    (sig : List (Action × String))
    (hwf : ∀ st ∈ sig, st.2 = "M" ∨ st.2 = "F") (hne : sig ≠ []) :
    chainLoop sig.length path nd 0 sig ≠ [] := by
  by_cases hshape : ∃ g1 g2 : String, sig = [(Action.parent, g1), (Action.child, g2)]
  · obtain ⟨g1, g2, rfl⟩ := hshape
    rw [chainLoop]
    simp
  · rw [chainLoop_zero path nd sig (fun g1 g2 heq => hshape ⟨g1, g2, heq⟩)]
    exact collapseList_ne_nil sig hwf hne


theorem getLastD_mem {qs : List (List Char)} (h : qs ≠ []) : qs.getLastD [] ∈ qs := by
  rw [List.getLastD_eq_getLast?]
  rw [List.getLast?_eq_getLast qs h]
  simp only [Option.getD_some]
  exact List.getLast_mem h

theorem signature_to_chain_spec (sig : List (Action × String))
    (sourceNode : Option PersonNode) (path : List String)
    (nd : List (String × PersonNode))
    (hwf : ∀ st ∈ sig, st.2 = "M" ∨ st.2 = "F") (hne : sig ≠ []) :
    ∃ ps, signature_to_chain sig sourceNode path nd = joinComma ps ∧ ps ≠ [] ∧
      ∀ p ∈ ps, p ∈ CHAIN_ALPHABET := by
  have hmem := chainLoop_mem_alphabet sig.length path nd sig 0
  have hnn := chainLoop_zero_ne_nil path nd sig hwf hne
  simp only [signature_to_chain]
  split
  · rename_i hcond
    obtain ⟨hne2, hlast, hplen⟩ := hcond
    split
    · rename_i sx sy tx ty hx hy hx2 hy2
      split
      · refine ⟨(chainLoop sig.length path nd 0 sig).dropLast ++
          [(chainLoop sig.length path nd 0 sig).getLastD [] ++
            (if tx < sx then ['&','o'] else ['&','l'])], rfl, by simp, ?_⟩
        intro p hp
        rcases List.mem_append.mp hp with hp2 | hp2
        · exact hmem p (List.dropLast_subset _ hp2)
        · rw [List.mem_singleton] at hp2
          subst hp2
          rcases hlast with hl | hl <;> rw [hl] <;> split <;> decide
      · exact ⟨_, rfl, hnn, hmem⟩
    · exact ⟨_, rfl, hnn, hmem⟩
  · exact ⟨_, rfl, hnn, hmem⟩

theorem mem_pushNew {y : List Char} :
    ∀ (xs acc : List (List Char)), y ∈ pushNew acc xs → y ∈ acc ∨ y ∈ xs := by
  intro xs
  induction xs with
  | nil => intro acc h; exact Or.inl h
  | cons x rest ih =>
    intro acc h
    have h2 : y ∈ pushNew (if x ∈ acc then acc else acc ++ [x]) rest := h
    rcases ih _ h2 with h3 | h3
    · split at h3
      · exact Or.inl h3
      · rcases List.mem_append.mp h3 with h4 | h4
        · exact Or.inl h4
        · rw [List.mem_singleton] at h4
          exact Or.inr (h4 ▸ List.mem_cons_self x rest)
    · exact Or.inr (List.mem_cons_of_mem x h3)

theorem mem_siblingIndices {parts : List (List Char)} {i : Nat}
    (h : i ∈ siblingIndices parts) : i < parts.length := by
  unfold siblingIndices at h
  rw [List.mem_filter] at h
  exact List.mem_range.mp h.1

theorem mem_foldl_pushNew {y : List Char} {f : List Char → List (List Char)} :
    ∀ (vars : List (List Char)) (init : List (List Char)),
      y ∈ vars.foldl (fun res var => pushNew res (f var)) init →
      y ∈ init ∨ ∃ var ∈ vars, y ∈ f var := by
  intro vars
  induction vars with
  | nil => intro init h; exact Or.inl h
  | cons v rest ih =>
    intro init h
    rw [List.foldl_cons] at h
    rcases ih _ h with h2 | h2
    · rcases mem_pushNew _ _ h2 with h3 | h3
      · exact Or.inl h3
      · exact Or.inr ⟨v, by simp, h3⟩
    · obtain ⟨var, hv, hy⟩ := h2
      exact Or.inr ⟨var, List.mem_cons_of_mem v hv, hy⟩

theorem mem_generateVariants {parts : List (List Char)}
    (hparts : ∀ p ∈ parts, p ∈ CHAIN_ALPHABET) :
    ∀ (idxs : List Nat) (current : List (List Char)),
      (∀ i ∈ idxs, i < parts.length) →
      current ≠ [] → (∀ p ∈ current, p ∈ CHAIN_ALPHABET) →
      ∀ v ∈ generateVariants parts idxs current,
        ∃ qs, v = joinComma qs ∧ qs ≠ [] ∧ ∀ p ∈ qs, p ∈ CHAIN_ALPHABET := by
  intro idxs
  induction idxs with
  | nil =>
    intro current _ hcne hcmem v hv
    rw [generateVariants] at hv
    rw [List.mem_singleton] at hv
    exact ⟨current, hv, hcne, hcmem⟩
  | cons pos restIdx ih =>
    intro current hbound hcne hcmem v hv
    rw [generateVariants] at hv
    rcases mem_foldl_pushNew _ _ hv with h2 | h2
    · exact absurd h2 (by simp)
    · obtain ⟨variant, hvar, hy⟩ := h2
      have hvalpha : variant ∈ CHAIN_ALPHABET := by
        rcases hfind : VARIANTS_MAP.find? (fun q => q.1 == parts.getD pos []) with _ | q
        · rw [hfind] at hvar
          simp only [Option.map_none', Option.getD_none] at hvar
          rw [List.mem_singleton] at hvar
          subst hvar
          have hpos := hbound pos (by simp)
          rw [List.getD_eq_getElem?_getD]
          rw [List.getElem?_eq_getElem hpos]
          exact hparts _ (by simp [List.getElem_mem])
        · rw [hfind] at hvar
          simp only [Option.map_some', Option.getD_some] at hvar
          exact variantsMap_sub q (List.mem_of_find?_eq_some hfind) variant hvar
      refine ih _ (fun i hi => hbound i (by simp [hi])) ?_ ?_ v hy
      · intro hset
        have := congrArg List.length hset
        rw [List.length_set] at this
        exact hcne (List.length_eq_zero.mp this)
      · intro p hp
        rcases List.mem_or_eq_of_mem_set hp with h3 | h3
        · exact hcmem p h3
        · exact h3 ▸ hvalpha

theorem mem_allFold {y : List Char} :
    ∀ (base acc : List (List Char)),
      y ∈ base.foldl (fun acc v =>
        if endsAmp ((splitComma v).getLastD []) then
          (if joinComma ((splitComma v).dropLast ++ [stripAmp ((splitComma v).getLastD [])]) ∈
              (if v ∈ acc then acc else acc ++ [v]) then
             (if v ∈ acc then acc else acc ++ [v])
           else (if v ∈ acc then acc else acc ++ [v]) ++
             [joinComma ((splitComma v).dropLast ++ [stripAmp ((splitComma v).getLastD [])])])
        else (if v ∈ acc then acc else acc ++ [v])) acc →
      y ∈ acc ∨ ∃ b ∈ base, y = b ∨
        y = joinComma ((splitComma b).dropLast ++ [stripAmp ((splitComma b).getLastD [])]) := by
  intro base
  induction base with
  | nil => intro acc h; exact Or.inl h
  | cons b rest ih =>
    intro acc h
    rw [List.foldl_cons] at h
    rcases ih _ h with h2 | h2
    · have h3 : y ∈ acc ∨ y = b ∨
          y = joinComma ((splitComma b).dropLast ++ [stripAmp ((splitComma b).getLastD [])]) := by
        repeat' split at h2
        all_goals try simp only [List.mem_append, List.mem_singleton] at h2
        all_goals tauto
      rcases h3 with h4 | h4 | h4
      · exact Or.inl h4
      · exact Or.inr ⟨b, by simp, Or.inl h4⟩
      · exact Or.inr ⟨b, by simp, Or.inr h4⟩
    · obtain ⟨b2, hb2, hy⟩ := h2
      exact Or.inr ⟨b2, List.mem_cons_of_mem b hb2, hy⟩

theorem stripped_spec {qs : List (List Char)} (hqne : qs ≠ [])
    (hqmem : ∀ p ∈ qs, p ∈ CHAIN_ALPHABET) :
    ∃ qs2, joinComma ((splitComma (joinComma qs)).dropLast ++
        [stripAmp ((splitComma (joinComma qs)).getLastD [])]) = joinComma qs2 ∧
      qs2 ≠ [] ∧ ∀ p ∈ qs2, p ∈ CHAIN_ALPHABET := by
  have hq : splitComma (joinComma qs) = qs :=
    splitComma_joinComma qs hqne (fun p hp => alphabet_no_comma p (hqmem p hp))
  rw [hq]
  refine ⟨qs.dropLast ++ [stripAmp (qs.getLastD [])], rfl, by simp, ?_⟩
  intro p hp
  rcases List.mem_append.mp hp with h6 | h6
  · exact hqmem p (List.dropLast_subset _ h6)
  · rw [List.mem_singleton] at h6
    subst h6
    exact alphabet_stripAmp _ (hqmem _ (getLastD_mem hqne))

theorem tryWE_members {chain : List Char} {ps : List (List Char)}
    (sN tN : Option PersonNode)
    (hchain : chain = joinComma ps) (hne : ps ≠ [])
    (hmem : ∀ p ∈ ps, p ∈ CHAIN_ALPHABET) :
    ∀ v ∈ try_with_elder_younger chain sN tN,
      ∃ qs, v = joinComma qs ∧ qs ≠ [] ∧ ∀ p ∈ qs, p ∈ CHAIN_ALPHABET := by
  have hsplit : splitComma chain = ps := by
    rw [hchain]
    exact splitComma_joinComma ps hne (fun p hp => alphabet_no_comma p (hmem p hp))
  have hbase : ∀ b, (b ∈ generateVariants ps (siblingIndices ps) ps ∨ b = chain) →
      ∃ qs, b = joinComma qs ∧ qs ≠ [] ∧ ∀ p ∈ qs, p ∈ CHAIN_ALPHABET := by
    intro b hb
    rcases hb with hb | rfl
    · exact mem_generateVariants hmem _ ps
        (fun i hi => mem_siblingIndices hi) hne hmem b hb
    · exact ⟨ps, hchain, hne, hmem⟩
  have hcont : ∀ (b : List Char),
      (∃ qs, b = joinComma qs ∧ qs ≠ [] ∧ ∀ p ∈ qs, p ∈ CHAIN_ALPHABET) →
      ∀ v, (v = b ∨ v = joinComma ((splitComma b).dropLast ++
          [stripAmp ((splitComma b).getLastD [])])) →
      ∃ qs, v = joinComma qs ∧ qs ≠ [] ∧ ∀ p ∈ qs, p ∈ CHAIN_ALPHABET := by
    intro b hbspec v hv
    obtain ⟨qs, rfl, hqne, hqmem⟩ := hbspec
    rcases hv with rfl | rfl
    · exact ⟨qs, rfl, hqne, hqmem⟩
    · exact stripped_spec hqne hqmem
  intro v hv
  simp only [try_with_elder_younger] at hv
  rw [hsplit] at hv
  split at hv
  · rw [List.mem_singleton] at hv
    exact ⟨ps, hv.trans hchain, hne, hmem⟩
  · rcases List.mem_cons.mp hv with rfl | hv2
    · exact ⟨ps, hchain, hne, hmem⟩
    · by_cases hsib : siblingIndices ps ≠ []
      · rw [if_pos hsib] at hv2
        have hv4 : v ∈ (generateVariants ps (siblingIndices ps) ps).foldl (fun acc v =>
            if endsAmp ((splitComma v).getLastD []) then
              (if joinComma ((splitComma v).dropLast ++ [stripAmp ((splitComma v).getLastD [])]) ∈
                  (if v ∈ acc then acc else acc ++ [v]) then
                 (if v ∈ acc then acc else acc ++ [v])
               else (if v ∈ acc then acc else acc ++ [v]) ++
                 [joinComma ((splitComma v).dropLast ++ [stripAmp ((splitComma v).getLastD [])])])
            else (if v ∈ acc then acc else acc ++ [v])) [] := by
          split at hv2
          · exact List.mem_of_mem_erase hv2
          · exact hv2
        rcases mem_allFold _ _ hv4 with h5 | h5
        · exact absurd h5 (by simp)
        · obtain ⟨b, hb, hy⟩ := h5
          exact hcont b (hbase b (Or.inl hb)) v hy
      · rw [if_neg hsib] at hv2
        have hv4 : v ∈ ([chain] : List (List Char)).foldl (fun acc v =>
            if endsAmp ((splitComma v).getLastD []) then
              (if joinComma ((splitComma v).dropLast ++ [stripAmp ((splitComma v).getLastD [])]) ∈
                  (if v ∈ acc then acc else acc ++ [v]) then
                 (if v ∈ acc then acc else acc ++ [v])
               else (if v ∈ acc then acc else acc ++ [v]) ++
                 [joinComma ((splitComma v).dropLast ++ [stripAmp ((splitComma v).getLastD [])])])
            else (if v ∈ acc then acc else acc ++ [v])) [] := by
          split at hv2
          · exact List.mem_of_mem_erase hv2
          · exact hv2
        rcases mem_allFold _ _ hv4 with h5 | h5
        · exact absurd h5 (by simp)
        · obtain ⟨b, hb, hy⟩ := h5
          rw [List.mem_singleton] at hb
          exact hcont b (hbase b (Or.inr hb)) v hy

theorem nd_gender_wf {nodes : List PersonNode}
    (hgen : ∀ n ∈ nodes, n.gender = none ∨ n.gender = some "M" ∨ n.gender = some "F") :
    ∀ k d, lookupNode (nodes.map (fun n => (n.id, n))) k = some d →
      d.gender = none ∨ d.gender = some "M" ∨ d.gender = some "F" := by
  intro k d h
  have hm := lookupNode_mem h
  rw [List.mem_map] at hm
  obtain ⟨n, hn, heq⟩ := hm
  injection heq with h1 h2
  rw [← h2]
  exact hgen n hn

theorem sig_gender_wf {g : Graph} {nd : List (String × PersonNode)}
    (hnd : ∀ k d, lookupNode nd k = some d →
      d.gender = none ∨ d.gender = some "M" ∨ d.gender = some "F") :
    ∀ (path : List String) (sig : List (Action × String)),
      path_to_graph_signature g path nd = .ok sig →
      ∀ st ∈ sig, st.2 = "M" ∨ st.2 = "F" := by
  intro path
  induction path with
  | nil =>
    intro sig h st hst
    have : sig = [] := by
      have h2 : (Except.ok [] : Except PyErr (List (Action × String))) = .ok sig := h
      injection h2 with h3
      exact h3.symm
    rw [this] at hst
    exact absurd hst (by simp)
  | cons u rest ih =>
    intro sig h st hst
    match rest, h, ih with
    | [], h, _ =>
      have : sig = [] := by
        have h2 : (Except.ok [] : Except PyErr (List (Action × String))) = .ok sig := h
        injection h2 with h3
        exact h3.symm
      rw [this] at hst
      exact absurd hst (by simp)
    | v :: rest2, h, ih =>
      rcases hl : lookupNode nd v with _ | d
      · rw [path_to_graph_signature, hl] at h
        exact absurd h (by simp [Except.bind, bind])
      · rcases hrec : path_to_graph_signature g (v :: rest2) nd with e | sig2
        · rw [path_to_graph_signature, hl, hrec] at h
          exact absurd h (by simp [Except.bind, bind])
        · have hgd : d.gender.getD "M" = "M" ∨ d.gender.getD "M" = "F" := by
            rcases hnd v d hl with h2 | h2 | h2 <;> simp [h2]
          rw [path_to_graph_signature, hl, hrec] at h
          simp only [Except.bind, bind] at h
          have htail := ih sig2 hrec
          split at h
          · injection h with h2
            rw [← h2] at hst
            rcases List.mem_cons.mp hst with rfl | hst2
            · exact hgd
            · exact htail st hst2
          · split at h
            · injection h with h2
              rw [← h2] at hst
              rcases List.mem_cons.mp hst with rfl | hst2
              · exact hgd
              · exact htail st hst2
            · split at h
              · injection h with h2
                rw [← h2] at hst
                rcases List.mem_cons.mp hst with rfl | hst2
                · exact hgd
                · exact htail st hst2
              · injection h with h2
                rw [← h2] at hst
                exact htail st hst

theorem findVariantMatch_mem :
    ∀ {variants : List (List Char)} {look : List Char → Option RuleInfo}
      {v : List Char} {r : RuleInfo},
      findVariantMatch variants look = some (v, r) → v ∈ variants := by
  intro variants
  induction variants with
  | nil => intro look v r h; exact absurd h (by simp [findVariantMatch])
  | cons w rest ih =>
    intro look v r h
    rw [findVariantMatch] at h
    split at h
    · injection h with h2
      injection h2 with h3 h4
      exact h3 ▸ List.mem_cons_self w rest
    · exact List.mem_cons_of_mem w (ih h)

theorem tierMatch_mem {data : KinshipData} {variants : List (List Char)}
    {tier : String} {v : List Char} {r : RuleInfo}
    (h : tierMatch data variants = some (tier, v, r)) : v ∈ variants := by
  unfold tierMatch at h
  split at h
  · injection h with h2
    injection h2 with h3 h4
    rename_i v2 r2 hfind
    have h5 : (v2, r2) = (v, r) := by
      injection h4 with h6 h7
      rw [h6, h7]
    exact findVariantMatch_mem (h5 ▸ hfind)
  · split at h
    · injection h with h2
      injection h2 with h3 h4
      rename_i v2 r2 hfind
      have h5 : (v2, r2) = (v, r) := by
        injection h4 with h6 h7
        rw [h6, h7]
      exact findVariantMatch_mem (h5 ▸ hfind)
    · split at h
      · injection h with h2
        injection h2 with h3 h4
        rename_i v2 r2 hfind
        have h5 : (v2, r2) = (v, r) := by
          injection h4 with h6 h7
          rw [h6, h7]
        exact findVariantMatch_mem (h5 ▸ hfind)
      · exact absurd h (by simp)

/-- C6: for well-formed inputs (distinct source and target present in the
graph, recognized-edge endpoints in the node list, genders absent or M/F),
the result chain is either empty — only with outcome "none" (or the
unreachable "error") — or a non-empty comma-separated string all of whose
atoms belong to the closed alphabet. -/
theorem C6_chain_alphabet (s t : String) (nodes : List PersonNode) (edges : List Edge)
    (data : KinshipData)
    (hst : s ≠ t)
    (hs : s ∈ (build_graph nodes edges).1.verts)
    (ht : t ∈ (build_graph nodes edges).1.verts)
    (hend : ∀ e ∈ edges, (e.label = "parent_of" ∨ e.label = "spouse_of") →
      e.source ∈ nodes.map (fun n => n.id) ∧ e.target ∈ nodes.map (fun n => n.id))
    (hgen : ∀ n ∈ nodes, n.gender = none ∨ n.gender = some "M" ∨ n.gender = some "F") :
    ∃ res, infer_kinship s t nodes edges data = .ok res ∧
      (res.chain = [] → res.match_type = "none" ∨ res.match_type = "error") ∧
      (res.chain ≠ [] → ∀ p ∈ splitComma res.chain, p ∈ CHAIN_ALPHABET) := by
  have hsp : shortest_path (build_graph nodes edges).1 s t =
      .ok (bfs (build_graph nodes edges).1 s t) := by
    unfold shortest_path
    rw [if_pos ⟨hs, ht⟩]
  cases hbfs : bfs (build_graph nodes edges).1 s t with
  | none =>
    refine ⟨{ title := "没有亲戚关系", aliases := [], chain := [],
              match_type := "none", path_desc := "两人之间没有路径连接".toList }, ?_, ?_, ?_⟩
    · simp only [infer_kinship, has_path, hsp, hbfs, Option.isSome]
    · intro _
      exact Or.inl rfl
    · intro h
      exact absurd rfl h
  | some path =>
    obtain ⟨hne, hh, hl, hchain, hmem⟩ := bfs_sound hs hbfs
    have htail : ∀ v ∈ path.tail, (lookupNode (build_graph nodes edges).2 v).isSome := by
      intro v hv
      have hvm : v ∈ path := List.tail_subset path hv
      have hvid : v ∈ nodes.map (fun n => n.id) :=
        verts_build_subset hend v (hmem v hvm)
      exact lookupNode_isSome_of_mem hvid
    obtain ⟨sig, hsig, hlen⟩ := path_sig_ok (relInv_build nodes edges)
      (build_graph nodes edges).2 path hchain htail
    have hplen : 2 ≤ path.length := path_len_ge_two hst hh hl
    have hsigne : sig ≠ [] := by
      intro h0
      have h1 := hlen hne
      rw [h0] at h1
      simp at h1
      omega
    have hsigwf : ∀ st ∈ sig, st.2 = "M" ∨ st.2 = "F" :=
      sig_gender_wf (nd_gender_wf hgen) path sig hsig
    obtain ⟨ps, hps, hpsne, hpsmem⟩ := signature_to_chain_spec sig
      (lookupNode (build_graph nodes edges).2 s) path (build_graph nodes edges).2
      hsigwf hsigne
    rw [infer_kinship_eq_of_path s t nodes edges data path sig
      (hsp.trans (congrArg Except.ok hbfs)) hsig]
    cases htm : tierMatch data (try_with_elder_younger
        (signature_to_chain sig (lookupNode (build_graph nodes edges).2 s) path
          (build_graph nodes edges).2)
        (lookupNode (build_graph nodes edges).2 s)
        (lookupNode (build_graph nodes edges).2 t)) with
    | some q =>
      obtain ⟨tier, v, r⟩ := q
      simp only [htm]
      have hvmem := tierMatch_mem htm
      obtain ⟨qs, hq, hqne, hqmem⟩ := tryWE_members
        (lookupNode (build_graph nodes edges).2 s)
        (lookupNode (build_graph nodes edges).2 t) hps hpsne hpsmem v hvmem
      have hvne : v ≠ [] := by
        rw [hq]
        exact joinComma_ne_nil qs hqne (fun p hp => alphabet_ne_nil p (hqmem p hp))
      refine ⟨_, rfl, ?_, ?_⟩
      · intro h0
        exact absurd h0 hvne
      · intro _ p hp
        have hsq : splitComma v = qs := by
          rw [hq]
          exact splitComma_joinComma qs hqne (fun p hp => alphabet_no_comma p (hqmem p hp))
        rw [hsq] at hp
        exact hqmem p hp
    | none =>
      simp only [htm]
      have hcne : signature_to_chain sig (lookupNode (build_graph nodes edges).2 s) path
          (build_graph nodes edges).2 ≠ [] := by
        rw [hps]
        exact joinComma_ne_nil ps hpsne (fun p hp => alphabet_ne_nil p (hpsmem p hp))
      refine ⟨_, rfl, ?_, ?_⟩
      · intro h0
        exact absurd h0 hcne
      · intro _ p hp
        have hsq : splitComma (signature_to_chain sig
            (lookupNode (build_graph nodes edges).2 s) path
            (build_graph nodes edges).2) = ps := by
          rw [hps]
          exact splitComma_joinComma ps hpsne (fun p hp => alphabet_no_comma p (hpsmem p hp))
        have hp2 : p ∈ splitComma (signature_to_chain sig
            (lookupNode (build_graph nodes edges).2 s) path
            (build_graph nodes edges).2) := hp
        rw [hsq] at hp2
        exact hpsmem p hp2

theorem C6_witness :
    ∃ res, infer_kinship "me" "bro"
      [ ⟨"P", some "M", none⟩, ⟨"me", some "M", none⟩, ⟨"bro", some "M", none⟩ ]
      [ ⟨"P", "me", "parent_of"⟩, ⟨"P", "bro", "parent_of"⟩ ] ⟨[], [], []⟩ = .ok res ∧
      (res.chain = [] → res.match_type = "none" ∨ res.match_type = "error") ∧
      (res.chain ≠ [] → ∀ p ∈ splitComma res.chain, p ∈ CHAIN_ALPHABET) :=
  C6_chain_alphabet "me" "bro"
    [ ⟨"P", some "M", none⟩, ⟨"me", some "M", none⟩, ⟨"bro", some "M", none⟩ ]
    [ ⟨"P", "me", "parent_of"⟩, ⟨"P", "bro", "parent_of"⟩ ] ⟨[], [], []⟩
    (by decide) (by decide) (by decide) (by decide) (by decide)

theorem scanOutside_filter :
    ∀ (l : List Char) (b : Bool),
      scanOutside l b = scanOutside (l.filter (fun c => c == '[' || c == ']')) b := by
  intro l
  induction l with
  | nil => intro b; rfl
  | cons c rest ih =>
    intro b
    rw [List.filter_cons]
    by_cases hbr : (c == '[' || c == ']') = true
    · rw [if_pos hbr]
      rw [scanOutside, scanOutside]
      exact ih _
    · rw [if_neg hbr]
      rw [scanOutside]
      simp only [Bool.or_eq_true, beq_iff_eq] at hbr
      have h1 : ¬ c = '[' := fun h => hbr (Or.inl h)
      have h2 : ¬ c = ']' := fun h => hbr (Or.inr h)
      have hstate : (if b = true then !(decide (c = '[')) else (decide (c = ']'))) = b := by
        cases b <;> simp [h1, h2]
      rw [hstate]
      exact ih b

theorem scanOutside_eq_of_filter_eq {u u2 : List Char} (b : Bool)
    (h : u.filter (fun c => c == '[' || c == ']') =
         u2.filter (fun c => c == '[' || c == ']')) :
    scanOutside u b = scanOutside u2 b := by
  rw [scanOutside_filter u b, scanOutside_filter u2 b, h]

theorem scan_false_split :
    ∀ l : List Char, scanOutside l false = true →
      ∃ w l2, l = w ++ ']' :: l2 ∧ (∀ c ∈ w, c ≠ ']') ∧ scanOutside l2 true = true := by
  intro l
  induction l with
  | nil => intro h; exact absurd h (by simp [scanOutside])
  | cons c rest ih =>
    intro h
    rw [scanOutside] at h
    by_cases hc : c = ']'
    · subst hc
      have h2 : scanOutside rest true = true := by simpa using h
      exact ⟨[], rest, by simp, by simp, h2⟩
    · have h2 : scanOutside rest false = true := by simpa [hc] using h
      obtain ⟨w, l2, rfl, hw, hl2⟩ := ih h2
      refine ⟨c :: w, l2, by simp, ?_, hl2⟩
      intro d hd
      rcases List.mem_cons.mp hd with rfl | hd2
      · exact hc
      · exact hw d hd2


theorem takeWhile_not_sep (sep : Char) (v : List Char) :
    ∀ (X : List Char), sep ∉ X →
      (X ++ sep :: v).takeWhile (fun d => decide (d ≠ sep)) = X ∧
      (X ++ sep :: v).dropWhile (fun d => decide (d ≠ sep)) = sep :: v := by
  intro X
  induction X with
  | nil =>
    intro _
    constructor
    · rw [List.nil_append, List.takeWhile_cons]
      simp
    · rw [List.nil_append, List.dropWhile_cons]
      simp
  | cons c rest ih =>
    intro h
    have hc : c ≠ sep := fun hh => h (hh ▸ List.mem_cons_self c rest)
    have ih2 := ih (fun hh => h (List.mem_cons_of_mem c hh))
    constructor
    · rw [List.cons_append, List.takeWhile_cons]
      rw [if_pos (by simpa using hc)]
      rw [ih2.1]
    · rw [List.cons_append, List.dropWhile_cons]
      rw [if_pos (by simpa using hc)]
      exact ih2.2

theorem splitFirstBrace_eq :
    ∀ {p b x a : List Char}, splitFirstBrace p = some (b, x, a) →
      p = b ++ lbrace :: (x ++ rbrace :: a) ∧ x ≠ [] ∧ rbrace ∉ x := by
  intro p
  induction p with
  | nil => intro b x a h; exact absurd h (by simp [splitFirstBrace])
  | cons c rest ih =>
    intro b x a h
    rw [splitFirstBrace] at h
    by_cases hc : c = lbrace
    · rw [if_pos hc] at h
      cases hd : rest.dropWhile (fun d => decide (d ≠ rbrace)) with
      | nil =>
        rw [hd] at h
        obtain ⟨q, h2, h3⟩ := Option.map_eq_some'.mp h
        obtain ⟨b2, x2, a2⟩ := q
        injection h3 with h4 h5
        injection h5 with h6 h7
        obtain ⟨hp2, hx2, hr2⟩ := ih h2
        subst h6
        subst h7
        rw [← h4, hp2]
        exact ⟨by simp, hx2, hr2⟩
      | cons d after =>
        rw [hd] at h
        have h9 : (if rest.takeWhile (fun d => decide (d ≠ rbrace)) ≠ [] then
            some (([] : List Char), rest.takeWhile (fun d => decide (d ≠ rbrace)), after)
          else (splitFirstBrace rest).map (fun q => (c :: q.1, q.2.1, q.2.2))) =
            some (b, x, a) := h
        clear h
        by_cases hx : rest.takeWhile (fun d => decide (d ≠ rbrace)) ≠ []
        · rw [if_pos hx] at h9
          injection h9 with h3
          injection h3 with h4 h5
          injection h5 with h6 h7
          have hdval : (decide (d ≠ rbrace)) = false := by
            have := List.head?_dropWhile_not (fun d => decide (d ≠ rbrace)) rest
            rw [hd] at this
            exact this
          have hdr : d = rbrace := by simpa using hdval
          subst hdr
          have hsplit := List.takeWhile_append_dropWhile
            (p := fun d => decide (d ≠ rbrace)) (l := rest)
          rw [hd] at hsplit
          subst h4
          subst h6
          subst h7
          refine ⟨?_, hx, ?_⟩
          · rw [List.nil_append, hc, hsplit]
          · intro hmem
            have := List.mem_takeWhile_imp hmem
            simp at this
        · rw [if_neg hx] at h9
          obtain ⟨q, h2, h3⟩ := Option.map_eq_some'.mp h9
          obtain ⟨b2, x2, a2⟩ := q
          injection h3 with h4 h5
          injection h5 with h6 h7
          obtain ⟨hp2, hx2, hr2⟩ := ih h2
          subst h6
          subst h7
          rw [← h4, hp2]
          exact ⟨by simp, hx2, hr2⟩
    · rw [if_neg hc] at h
      obtain ⟨q, h2, h3⟩ := Option.map_eq_some'.mp h
      obtain ⟨b2, x2, a2⟩ := q
      injection h3 with h4 h5
      injection h5 with h6 h7
      obtain ⟨hp2, hx2, hr2⟩ := ih h2
      subst h6
      subst h7
      rw [← h4, hp2]
      exact ⟨by simp, hx2, hr2⟩

theorem splitFirstBrace_min :
    ∀ {p b x0 a : List Char}, splitFirstBrace p = some (b, x0, a) →
      ∀ u x v, p = u ++ lbrace :: (x ++ rbrace :: v) → x ≠ [] → rbrace ∉ x →
        b.length ≤ u.length := by
  intro p
  induction p with
  | nil =>
    intro b x0 a h
    exact absurd h (by simp [splitFirstBrace])
  | cons c rest ih =>
    intro b x0 a h u x v hu hxne hxr
    rw [splitFirstBrace] at h
    by_cases hc : c = lbrace
    · rw [if_pos hc] at h
      cases hd : rest.dropWhile (fun d => decide (d ≠ rbrace)) with
      | nil =>
        rw [hd] at h
        obtain ⟨q, h2, h3⟩ := Option.map_eq_some'.mp h
        obtain ⟨b2, x2, a2⟩ := q
        injection h3 with h4 h5
        cases u with
        | nil =>
          rw [List.nil_append] at hu
          injection hu with hu1 hu2
          have hdw : rest.dropWhile (fun d => decide (d ≠ rbrace)) = rbrace :: v := by
            rw [hu2]
            exact (takeWhile_not_sep rbrace v x hxr).2
          rw [hd] at hdw
          exact absurd hdw (by simp)
        | cons c0 u2 =>
          rw [List.cons_append] at hu
          injection hu with hu1 hu2
          have hlen := ih h2 u2 x v hu2 hxne hxr
          rw [← h4]
          simp only [List.length_cons]
          omega
      | cons d after =>
        rw [hd] at h
        have h9 : (if rest.takeWhile (fun d => decide (d ≠ rbrace)) ≠ [] then
            some (([] : List Char), rest.takeWhile (fun d => decide (d ≠ rbrace)), after)
          else (splitFirstBrace rest).map (fun q => (c :: q.1, q.2.1, q.2.2))) =
            some (b, x0, a) := h
        clear h
        by_cases hx : rest.takeWhile (fun d => decide (d ≠ rbrace)) ≠ []
        · rw [if_pos hx] at h9
          injection h9 with h3
          injection h3 with h4 h5
          rw [← h4]
          simp
        · rw [if_neg hx] at h9
          obtain ⟨q, h2, h3⟩ := Option.map_eq_some'.mp h9
          obtain ⟨b2, x2, a2⟩ := q
          injection h3 with h4 h5
          cases u with
          | nil =>
            rw [List.nil_append] at hu
            injection hu with hu1 hu2
            have htw : rest.takeWhile (fun d => decide (d ≠ rbrace)) = x := by
              rw [hu2]
              exact (takeWhile_not_sep rbrace v x hxr).1
            have hxnil : x = [] := by
              rw [← htw]
              exact not_not.mp hx
            exact absurd hxnil hxne
          | cons c0 u2 =>
            rw [List.cons_append] at hu
            injection hu with hu1 hu2
            have hlen := ih h2 u2 x v hu2 hxne hxr
            rw [← h4]
            simp only [List.length_cons]
            omega
    · rw [if_neg hc] at h
      obtain ⟨q, h2, h3⟩ := Option.map_eq_some'.mp h
      obtain ⟨b2, x2, a2⟩ := q
      injection h3 with h4 h5
      cases u with
      | nil =>
        rw [List.nil_append] at hu
        injection hu with hu1 hu2
        exact absurd hu1 hc
      | cons c0 u2 =>
        rw [List.cons_append] at hu
        injection hu with hu1 hu2
        have hlen := ih h2 u2 x v hu2 hxne hxr
        rw [← h4]
        simp only [List.length_cons]
        omega

theorem braceTok_append (x v : List Char) :
    braceTok x ++ v = lbrace :: (x ++ rbrace :: v) := by
  simp [braceTok]

theorem noSep_eq {x x0 v v0 : List Char} (hx : rbrace ∉ x) (hx0 : rbrace ∉ x0)
    (h : x ++ rbrace :: v = x0 ++ rbrace :: v0) : x = x0 ∧ v = v0 := by
  have h1 := (takeWhile_not_sep rbrace v x hx).1
  have h2 := (takeWhile_not_sep rbrace v0 x0 hx0).1
  have hxx : x = x0 := by rw [← h1, ← h2, h]
  refine ⟨hxx, ?_⟩
  subst hxx
  have h3 : rbrace :: v = rbrace :: v0 := List.append_cancel_left h
  injection h3

theorem braceTok_inj {a b : List Char} (h : braceTok a = braceTok b) : a = b := by
  unfold braceTok at h
  injection h with h1 h2
  exact List.append_cancel_right h2

theorem catalog_entry :
    ∀ qq ∈ TEMPLATE_VARS, ∃ name, qq.1 = braceTok name ∧ lbrace ∉ name ∧
      name.filter (fun c => c == '[' || c == ']') = [] ∧
      ∀ r ∈ qq.2, r.filter (fun c => c == '[' || c == ']') = [] := by
  intro qq hq
  fin_cases hq
  · exact ⟨['G','0'], rfl, by decide, by decide, by decide⟩
  · exact ⟨['G','1'], rfl, by decide, by decide, by decide⟩
  · exact ⟨['G','1','M'], rfl, by decide, by decide, by decide⟩
  · exact ⟨['G','1','W'], rfl, by decide, by decide, by decide⟩
  · exact ⟨['G','2'], rfl, by decide, by decide, by decide⟩
  · exact ⟨['M','0'], rfl, by decide, by decide, by decide⟩
  · exact ⟨['M','1','M'], rfl, by decide, by decide, by decide⟩
  · exact ⟨['M','1','W'], rfl, by decide, by decide, by decide⟩
  · exact ⟨['M','2','M'], rfl, by decide, by decide, by decide⟩
  · exact ⟨['M','2','W'], rfl, by decide, by decide, by decide⟩
  · exact ⟨['M','-','1'], rfl, by decide, by decide, by decide⟩

theorem filter_brackets_nil_of_comma {t : List Char} (h : ∀ c ∈ t, c = ',') :
    t.filter (fun c => c == '[' || c == ']') = [] := by
  rw [List.filter_eq_nil_iff]
  intro a ha
  rw [h a ha]
  decide

theorem rstripComma_decomp (s : List Char) :
    ∃ t, s = rstripComma s ++ t ∧ ∀ c ∈ t, c = ',' := by
  refine ⟨(s.reverse.takeWhile (fun c => decide (c = ','))).reverse, ?_, ?_⟩
  · rw [rstripComma, ← List.reverse_append, List.takeWhile_append_dropWhile,
      List.reverse_reverse]
  · intro c hc
    rw [List.mem_reverse] at hc
    simpa using List.mem_takeWhile_imp hc

theorem lstripComma_decomp (s : List Char) :
    ∃ t, s = t ++ lstripComma s ∧ ∀ c ∈ t, c = ',' := by
  refine ⟨s.takeWhile (fun c => decide (c = ',')), ?_, ?_⟩
  · exact (List.takeWhile_append_dropWhile (fun c => decide (c = ',')) s).symm
  · intro c hc
    simpa using List.mem_takeWhile_imp hc

theorem lstripComma_brace : ∀ (w t : List Char),
    lstripComma (w ++ lbrace :: t) = lstripComma w ++ lbrace :: t := by
  intro w t
  induction w with
  | nil =>
    rw [List.nil_append]
    rw [lstripComma, List.dropWhile_cons, if_neg (by decide)]
    rfl
  | cons c w2 ih =>
    rw [List.cons_append]
    rw [lstripComma, List.dropWhile_cons]
    by_cases hc : c = ','
    · rw [if_pos (by simpa using hc)]
      rw [lstripComma, List.dropWhile_cons, if_pos (by simpa using hc)]
      exact ih
    · rw [if_neg (by simpa using hc)]
      rw [lstripComma, List.dropWhile_cons, if_neg (by simpa using hc)]
      rw [List.cons_append]

theorem unknown_decomp {p before x0 after : List Char}
    (hU : UnknownOutside p)
    (hsp : splitFirstBrace p = some (before, x0, after))
    (hne : TEMPLATE_VARS.find? (fun q => q.1 == braceTok x0) ≠ none)
    (hkey : lbrace ∉ x0) :
    ∃ w x v, after = w ++ braceTok x ++ v ∧ TokClean x ∧
      TEMPLATE_VARS.find? (fun q => q.1 == braceTok x) = none ∧
      scanOutside (before ++ lbrace :: (x0 ++ rbrace :: w)) true = true := by
  obtain ⟨u, x, v, hp, hscan, hclean, hnone⟩ := hU
  obtain ⟨hpeq, hx0ne, hx0r⟩ := splitFirstBrace_eq hsp
  have hxr : rbrace ∉ x := fun hm => ((hclean.2 rbrace hm).2.1) rfl
  have hp' : p = u ++ lbrace :: (x ++ rbrace :: v) := by
    rw [hp, List.append_assoc, braceTok_append]
  have heq : u ++ lbrace :: (x ++ rbrace :: v) =
      before ++ lbrace :: (x0 ++ rbrace :: after) := by
    rw [← hp', hpeq]
  rcases List.append_eq_append_iff.mp heq with ⟨a1, ha1, ha2⟩ | ⟨b1, hb1, hb2⟩
  · cases a1 with
    | nil =>
      rw [List.append_nil] at ha1
      rw [List.nil_append] at ha2
      injection ha2 with h1 h2
      obtain ⟨hx1, hv1⟩ := noSep_eq hxr hx0r h2
      rw [← hx1] at hne
      exact absurd hnone hne
    | cons c a2 =>
      have hmin := splitFirstBrace_min hsp u x v hp' hclean.1 hxr
      rw [ha1] at hmin
      simp only [List.length_append, List.length_cons] at hmin
      omega
  · cases b1 with
    | nil =>
      rw [List.append_nil] at hb1
      rw [List.nil_append] at hb2
      injection hb2 with h1 h2
      obtain ⟨hx1, hv1⟩ := noSep_eq hx0r hxr h2
      rw [hx1] at hne
      exact absurd hnone hne
    | cons c b2 =>
      rw [List.cons_append] at hb2
      injection hb2 with h1 h2
      rcases List.append_eq_append_iff.mp h2 with ⟨d2, hd1, hd2⟩ | ⟨e2, he1, he2⟩
      · cases d2 with
        | nil =>
          rw [List.nil_append] at hd2
          injection hd2 with hh1 hh2
          exact absurd hh1 (by decide)
        | cons e d3 =>
          rw [List.cons_append] at hd2
          injection hd2 with hh1 hh2
          refine ⟨d3, x, v, ?_, hclean, hnone, ?_⟩
          · rw [hh2, List.append_assoc, braceTok_append]
          · have hu2 : u = before ++ lbrace :: (x0 ++ rbrace :: d3) := by
              rw [hb1, ← h1, hd1, ← hh1]
            rw [← hu2]
            exact hscan
      · cases e2 with
        | nil =>
          rw [List.nil_append] at he2
          injection he2 with hh1 hh2
          exact absurd hh1 (by decide)
        | cons f e3 =>
          rw [List.cons_append] at he2
          injection he2 with hh1 hh2
          exact absurd (by
            rw [he1, ← hh1]
            exact List.mem_append_right _ (List.mem_cons_self _ _)) hkey

theorem unknown_next {p before x0 after : List Char} {qq : List Char × List (List Char)}
    (hU : UnknownOutside p)
    (hsp : splitFirstBrace p = some (before, x0, after))
    (hfd : TEMPLATE_VARS.find? (fun q => q.1 == braceTok x0) = some qq)
    {rep : List Char} (hrep : rep ∈ qq.2) :
    UnknownOutside (if rep ≠ [] then before ++ rep ++ after
      else if rstripComma before ≠ [] ∧ lstripComma after ≠ [] then
        rstripComma before ++ ',' :: lstripComma after
      else rstripComma before ++ lstripComma after) := by
  have hqmem : qq ∈ TEMPLATE_VARS := List.mem_of_find?_eq_some hfd
  have hqp : qq.1 = braceTok x0 := by
    have := List.find?_some hfd
    simpa using this
  obtain ⟨name, hname, hnl, hnf, hreps⟩ := catalog_entry qq hqmem
  have hx0name : name = x0 := braceTok_inj (by rw [← hname, hqp])
  subst hx0name
  have hne : TEMPLATE_VARS.find? (fun q => q.1 == braceTok name) ≠ none := by
    rw [hfd]
    exact Option.some_ne_none qq
  obtain ⟨w, x, v, hafter, hclean, hnone, hscan⟩ := unknown_decomp hU hsp hne hnl
  have hrepf : rep.filter (fun c => c == '[' || c == ']') = [] := hreps rep hrep
  have hfl : ((lbrace == '[') || (lbrace == ']')) = false := by decide
  have hfr : ((rbrace == '[') || (rbrace == ']')) = false := by decide
  by_cases hrne : rep ≠ []
  · rw [if_pos hrne]
    refine ⟨before ++ rep ++ w, x, v, ?_, ?_, hclean, hnone⟩
    · rw [hafter]
      simp [List.append_assoc]
    · have hfeq : (before ++ rep ++ w).filter (fun c => c == '[' || c == ']') =
          (before ++ lbrace :: (name ++ rbrace :: w)).filter
            (fun c => c == '[' || c == ']') := by
        simp [List.filter_append, List.filter_cons, hfl, hfr, hrepf, hnf]
      rw [scanOutside_eq_of_filter_eq true hfeq]
      exact hscan
  · rw [if_neg hrne]
    obtain ⟨t1, hbdec, ht1⟩ := rstripComma_decomp before
    obtain ⟨t2, hwdec, ht2⟩ := lstripComma_decomp w
    have ht1f := filter_brackets_nil_of_comma ht1
    have ht2f := filter_brackets_nil_of_comma ht2
    have hcomma : ((',' : Char) == '[' || (',' : Char) == ']') = false := by decide
    have ha2 : lstripComma after = lstripComma w ++ lbrace :: (x ++ rbrace :: v) := by
      rw [hafter, List.append_assoc, braceTok_append, lstripComma_brace]
    have hfb : (rstripComma before).filter (fun c => c == '[' || c == ']') =
        before.filter (fun c => c == '[' || c == ']') := by
      conv_rhs => rw [hbdec]
      simp [List.filter_append, ht1f]
    have hfw : (lstripComma w).filter (fun c => c == '[' || c == ']') =
        w.filter (fun c => c == '[' || c == ']') := by
      conv_rhs => rw [hwdec]
      simp [List.filter_append, ht2f]
    by_cases hba : rstripComma before ≠ [] ∧ lstripComma after ≠ []
    · rw [if_pos hba]
      refine ⟨rstripComma before ++ ',' :: lstripComma w, x, v, ?_, ?_, hclean, hnone⟩
      · rw [ha2]
        simp [braceTok, List.append_assoc]
      · have hfeq : (rstripComma before ++ ',' :: lstripComma w).filter
            (fun c => c == '[' || c == ']') =
            (before ++ lbrace :: (name ++ rbrace :: w)).filter
              (fun c => c == '[' || c == ']') := by
          simp [List.filter_append, List.filter_cons, hfl, hfr, hcomma, hnf, hfb, hfw]
        rw [scanOutside_eq_of_filter_eq true hfeq]
        exact hscan
    · rw [if_neg hba]
      refine ⟨rstripComma before ++ lstripComma w, x, v, ?_, ?_, hclean, hnone⟩
      · rw [ha2]
        simp [braceTok, List.append_assoc]
      · have hfeq : (rstripComma before ++ lstripComma w).filter
            (fun c => c == '[' || c == ']') =
            (before ++ lbrace :: (name ++ rbrace :: w)).filter
              (fun c => c == '[' || c == ']') := by
          simp [List.filter_append, List.filter_cons, hfl, hfr, hnf, hfb, hfw]
        rw [scanOutside_eq_of_filter_eq true hfeq]
        exact hscan

theorem expand_preserves_unknown :
    ∀ (fuel : Nat) (p e : List Char), UnknownOutside p →
      e ∈ expand_template fuel p → UnknownOutside e := by
  intro fuel
  induction fuel with
  | zero =>
    intro p e hU he
    rw [expand_template, List.mem_singleton] at he
    subst he
    exact hU
  | succ fuel ih =>
    intro p e hU he
    rw [expand_template] at he
    cases hsp : splitFirstBrace p with
    | none =>
      rw [hsp] at he
      have he3 : e ∈ [p] := he
      rw [List.mem_singleton] at he3
      subst he3
      exact hU
    | some bxa =>
      obtain ⟨before, x0, after⟩ := bxa
      rw [hsp] at he
      have he2 : e ∈ (match TEMPLATE_VARS.find? (fun q => q.1 == braceTok x0) with
        | none => [p]
        | some q => (q.2.map (fun rep =>
            expand_template fuel (if rep ≠ [] then before ++ rep ++ after
              else if rstripComma before ≠ [] ∧ lstripComma after ≠ [] then
                rstripComma before ++ ',' :: lstripComma after
              else rstripComma before ++ lstripComma after))).flatten) := he
      clear he
      cases hfd : TEMPLATE_VARS.find? (fun q => q.1 == braceTok x0) with
      | none =>
        rw [hfd] at he2
        have he3 : e ∈ [p] := he2
        rw [List.mem_singleton] at he3
        subst he3
        exact hU
      | some qq =>
        rw [hfd] at he2
        have he3 : e ∈ (qq.2.map (fun rep =>
            expand_template fuel (if rep ≠ [] then before ++ rep ++ after
              else if rstripComma before ≠ [] ∧ lstripComma after ≠ [] then
                rstripComma before ++ ',' :: lstripComma after
              else rstripComma before ++ lstripComma after))).flatten := he2
        rw [List.mem_flatten] at he3
        obtain ⟨l, hl, hel⟩ := he3
        rw [List.mem_map] at hl
        obtain ⟨rep, hrep, hlrep⟩ := hl
        rw [← hlrep] at hel
        exact ih _ e (unknown_next hU hsp hfd hrep) hel

theorem parseSegs_lit (fuel : Nat) (c : Char) (rest : List Char) (hc : ¬ c = '[') :
    parseSegs (fuel+1) (c :: rest) =
      (parseSegs fuel rest).map (fun segs => Seg.lit c :: segs) := by
  rw [parseSegs, if_neg hc]

theorem parseSegs_bracket (fuel : Nat) (w2 t : List Char) (hw2 : ']' ∉ w2) :
    parseSegs (fuel+1) ('[' :: (w2 ++ ']' :: t)) =
      (parseSegs fuel t).map (fun segs => Seg.alts (splitOnChar '|' w2) :: segs) := by
  rw [parseSegs, if_pos rfl]
  rw [(takeWhile_not_sep ']' t w2 hw2).2]
  rw [(takeWhile_not_sep ']' t w2 hw2).1]

theorem parse_lit_of_outside :
    ∀ (fuel : Nat) (u w : List Char), scanOutside u true = true →
      parseSegs fuel (u ++ lbrace :: w) = none ∨
      ∃ s1 s2, parseSegs fuel (u ++ lbrace :: w) = some (s1 ++ Seg.lit lbrace :: s2) := by
  intro fuel
  induction fuel with
  | zero =>
    intro u w _
    left
    rfl
  | succ fuel ih =>
    intro u w hscan
    cases u with
    | nil =>
      rw [List.nil_append]
      rw [parseSegs_lit fuel lbrace w (by decide)]
      cases hp : parseSegs fuel w with
      | none =>
        left
        rfl
      | some segs =>
        right
        exact ⟨[], segs, rfl⟩
    | cons c u2 =>
      rw [scanOutside] at hscan
      by_cases hc : c = '['
      · subst hc
        have hst : (if true = true then !(decide ('[' = '[')) else (decide ('[' = ']'))) =
            false := by decide
        rw [hst] at hscan
        obtain ⟨w2, l2, rfl, hw2, hl2⟩ := scan_false_split u2 hscan
        have hassoc : ('[' :: (w2 ++ ']' :: l2)) ++ lbrace :: w =
            '[' :: (w2 ++ ']' :: (l2 ++ lbrace :: w)) := by
          simp [List.append_assoc]
        rw [hassoc]
        rw [parseSegs_bracket fuel w2 (l2 ++ lbrace :: w) (fun hm => hw2 ']' hm rfl)]
        rcases ih l2 w hl2 with hnone | ⟨s1, s2, hsome⟩
        · left
          rw [hnone]
          rfl
        · right
          exact ⟨Seg.alts (splitOnChar '|' w2) :: s1, s2, by rw [hsome]; rfl⟩
      · have hst : (if true = true then !(decide (c = '[')) else (decide (c = ']'))) =
            true := by simp [hc]
        rw [hst] at hscan
        rw [List.cons_append, parseSegs_lit fuel c (u2 ++ lbrace :: w) hc]
        rcases ih u2 w hscan with hnone | ⟨s1, s2, hsome⟩
        · left
          rw [hnone]
          rfl
        · right
          exact ⟨Seg.lit c :: s1, s2, by rw [hsome]; rfl⟩

theorem segsMatch_lit_mem :
    ∀ (s1 : List Seg) (c : Char) (s2 : List Seg) (s : List Char),
      segsMatch (s1 ++ Seg.lit c :: s2) s = true → c ∈ s := by
  intro s1
  induction s1 with
  | nil =>
    intro c s2 s h
    rw [List.nil_append] at h
    cases s with
    | nil => exact Bool.noConfusion (show (false : Bool) = true from h)
    | cons d s3 =>
      have h2 : (c == d && segsMatch s2 s3) = true := h
      rw [Bool.and_eq_true] at h2
      have hcd : c = d := by simpa using h2.1
      rw [hcd]
      exact List.mem_cons_self d s3
  | cons sg rest ih =>
    intro c s2 s h
    rw [List.cons_append] at h
    cases sg with
    | lit c0 =>
      cases s with
      | nil => exact Bool.noConfusion (show (false : Bool) = true from h)
      | cons d s3 =>
        have h2 : (c0 == d && segsMatch (rest ++ Seg.lit c :: s2) s3) = true := h
        rw [Bool.and_eq_true] at h2
        exact List.mem_cons_of_mem d (ih c s2 s3 h2.2)
    | alts choices =>
      have h3 : choices.any (fun a =>
          a.isPrefixOf s && segsMatch (rest ++ Seg.lit c :: s2) (s.drop a.length)) =
          true := h
      rw [List.any_eq_true] at h3
      obtain ⟨a, ha, h2⟩ := h3
      rw [Bool.and_eq_true] at h2
      exact (List.drop_sublist a.length s).subset (ih c s2 (s.drop a.length) h2.2)

theorem match_combined_unknown_false (e chain : List Char) (hU : UnknownOutside e)
    (hch : lbrace ∉ chain) : match_combined_pattern e chain = false := by
  obtain ⟨u, x, v, hp, hscan, hclean, hnone⟩ := hU
  have hp' : e = u ++ lbrace :: (x ++ rbrace :: v) := by
    rw [hp, List.append_assoc, braceTok_append]
  subst hp'
  unfold match_combined_pattern
  rcases parse_lit_of_outside ((u ++ lbrace :: (x ++ rbrace :: v)).length + 1) u
      (x ++ rbrace :: v) hscan with hnoneP | ⟨s1, s2, hsome⟩
  · rw [hnoneP]
  · rw [hsome]
    have hgoal : segsMatch (s1 ++ Seg.lit lbrace :: s2) chain = false := by
      rcases Bool.eq_false_or_eq_true
          (segsMatch (s1 ++ Seg.lit lbrace :: s2) chain) with ht | hf
      · exact absurd (segsMatch_lit_mem s1 lbrace s2 chain ht) hch
      · exact hf
    exact hgoal

/-- C10 (counterexample to the unconditional claim): the branch pattern
    `[{X}|f]` contains the clean template token `{X}`, which is not in the
    eleven-variable catalog, yet the pattern matches the brace-free
    single-atom chain `f`: the token sits inside a `[...]` alternation
    group, where the regex treats it as one alternative of the group, and
    the other alternative `f` matches the whole chain.  `lookup_branch`
    reports the rule as a match. -/
theorem C10_counterexample :
    ('[' :: (braceTok ['X'] ++ ['|', 'f', ']'])) =
        ['[', lbrace, 'X', rbrace, '|', 'f', ']'] ∧
    TEMPLATE_VARS.find? (fun q => q.1 == braceTok ['X']) = none ∧
    (['f'] : List Char) ∈ CHAIN_ALPHABET ∧
    lbrace ∉ (['f'] : List Char) ∧
    match_branch_pattern ['[', lbrace, 'X', rbrace, '|', 'f', ']'] ['f'] = true ∧
    KinshipData.lookup_branch
        ⟨[], [], [⟨"旁", [], ['[', lbrace, 'X', rbrace, '|', 'f', ']']⟩]⟩ ['f'] =
      some ⟨"旁", [], ['[', lbrace, 'X', rbrace, '|', 'f', ']']⟩ := by
  decide

/-- C10 (amended): if a branch rule's pattern contains, outside any
    bracket group, a clean `\x7bVAR\x7d` token that is not one of the eleven
    catalog variables, then for every chain without a left brace the rule
    never matches: template expansion keeps such a token verbatim, the
    compiled regex treats its braces as literal characters, and the
    full-match cannot succeed, so `lookup_branch` never returns that
    rule. -/
theorem C10_amended (d : KinshipData) (rule : RuleInfo) (chain : List Char)
    (hU : UnknownOutside rule.chain) (hch : lbrace ∉ chain) :
    match_branch_pattern rule.chain chain = false ∧
    d.lookup_branch chain ≠ some rule := by
  have hm : match_branch_pattern rule.chain chain = false := by
    unfold match_branch_pattern
    cases hb : (expand_template (rule.chain.length + 1) rule.chain).any
        (fun e => match_combined_pattern e chain) with
    | false => rfl
    | true =>
      rw [List.any_eq_true] at hb
      obtain ⟨e, he, hmt⟩ := hb
      rw [match_combined_unknown_false e chain
        (expand_preserves_unknown (rule.chain.length + 1) rule.chain e hU he) hch] at hmt
      exact Bool.noConfusion hmt
  refine ⟨hm, ?_⟩
  intro hlk
  unfold KinshipData.lookup_branch at hlk
  have hpred0 := List.find?_some hlk
  have hpred : match_branch_pattern rule.chain chain = true := hpred0
  rw [hm] at hpred
  exact Bool.noConfusion hpred

/-- C10 witness: the pattern `f,\x7bX\x7d` carries the unknown token `\x7bX\x7d`
    outside any bracket group, so it never matches the alphabet chain
    `f,f`, and a store whose only branch rule has that pattern never
    returns it. -/
theorem C10_witness :
    match_branch_pattern ['f', ',', lbrace, 'X', rbrace] ['f', ',', 'f'] = false ∧
    KinshipData.lookup_branch ⟨[], [], [⟨"旁", [], ['f', ',', lbrace, 'X', rbrace]⟩]⟩
        ['f', ',', 'f'] ≠ some ⟨"旁", [], ['f', ',', lbrace, 'X', rbrace]⟩ :=
  C10_amended ⟨[], [], [⟨"旁", [], ['f', ',', lbrace, 'X', rbrace]⟩]⟩
    ⟨"旁", [], ['f', ',', lbrace, 'X', rbrace]⟩ ['f', ',', 'f']
    ⟨['f', ','], ['X'], [], by decide, by decide, ⟨by decide, by decide⟩, by decide⟩
    (by decide)

end KinNet
